import Mathlib

/-!
Verification of the coordination and caching layer of the colorize
extension: the rate limiter (`lib/util/rate-limiter`), the two-partition
LRU decoration cache (`lib/cache-manager`), duplicate decoration removal
and the cache write on the colorize path (`extension.ts`), and the batched
file-extraction handler of the language server (`server/src/utils` and the
`colorize_extract_variables` request handler).

Wall-clock time is modelled as `Nat` milliseconds (the value of
`Date.now()`); timers are modelled by storing the absolute time at which
the armed `setTimeout` is scheduled to fire.
-/

namespace Colorize

/-! ## Rate limiter (`src/lib/util/rate-limiter.ts`, class `RateLimiter`) -/

/-- State of a `RateLimiter` instance.  `timeoutId` models the armed
`setTimeout` handle as the absolute wall-clock time at which the timer is
scheduled to fire (`none` = no timer armed); `queuedExecution` is the
stored callback payload (`null` = `none`).  The payload type `α`
abstracts the thunk `() => void`. -/
structure RateLimiter (α : Type) where
  minInterval : Nat
  lastExecutionTime : Nat
  timeoutId : Option Nat
  queuedExecution : Option α

/-- Construction: `new RateLimiter(minInterval)`; `lastExecutionTime`
starts at `0`, no timer armed, no queued payload. -/
def RateLimiter.new (i : Nat) : RateLimiter α :=
  { minInterval := i, lastExecutionTime := 0, timeoutId := none,
    queuedExecution := none }

/-- One call to `RateLimiter.execute` at wall-clock time `now` with payload
`fn`.  Returns the new state, plus the emitted execution `(now, fn)` when
the call runs the payload immediately.  Mirrors the source: compute
`timeSinceLastExecution = now - lastExecutionTime`, clear any pending
timer, then either run immediately (elapsed ≥ minInterval, recording
`now` as the last execution time) or store `fn` in `queuedExecution` and
arm a timer for `minInterval - timeSinceLastExecution` from now. -/
def RateLimiter.execute (s : RateLimiter α) (now : Nat) (fn : α) :
    RateLimiter α × Option (Nat × α) :=
  let timeSinceLastExecution := now - s.lastExecutionTime
  let s' := { s with timeoutId := none }
  if s'.minInterval ≤ timeSinceLastExecution then
    ({ s' with lastExecutionTime := now }, some (now, fn))
  else
    ({ s' with
        queuedExecution := some fn,
        timeoutId := some (now + (s'.minInterval - timeSinceLastExecution)) },
      none)

/-- The body of the `setTimeout` callback, run at wall-clock time `now`
(the scheduled fire time).  Mirrors the source: only if `queuedExecution`
is non-null does it record `now` as the last execution time, run the
queued payload and clear both fields. -/
def RateLimiter.fireTimeout (s : RateLimiter α) (now : Nat) :
    RateLimiter α × Option (Nat × α) :=
  match s.queuedExecution with
  | some fn =>
      ({ s with
          lastExecutionTime := now
          queuedExecution := none
          timeoutId := none },
        some (now, fn))
  | none => (s, none)

/-- `RateLimiter.cancel`: when a timer is armed, clear it and the queued
payload; otherwise do nothing. -/
def RateLimiter.cancel (s : RateLimiter α) : RateLimiter α :=
  match s.timeoutId with
  | some _ => { s with timeoutId := none, queuedExecution := none }
  | none => s

/-- Event-loop semantics of one `execute` call arriving at time `t`: if a
timer is armed and its scheduled fire time is ≤ `t`, the event loop runs
the timer callback first (at its scheduled time), then the `execute`
call.  Returns the new state and the executions emitted, in order. -/
def RateLimiter.step (s : RateLimiter α) (t : Nat) (fn : α) :
    RateLimiter α × List (Nat × α) :=
  match s.timeoutId with
  | some tf =>
      if tf ≤ t then
        let p1 := s.fireTimeout tf
        let p2 := p1.1.execute t fn
        (p2.1, p1.2.toList ++ p2.2.toList)
      else
        let p2 := s.execute t fn
        (p2.1, p2.2.toList)
  | none =>
      let p2 := s.execute t fn
      (p2.1, p2.2.toList)

/-- Let any still-armed timer fire at its scheduled time (the trailing
deferred execution after the last `execute` call). -/
def RateLimiter.flush (s : RateLimiter α) : List (Nat × α) :=
  match s.timeoutId with
  | some tf => (s.fireTimeout tf).2.toList
  | none => []

/-- Process a time-ordered list of `execute` calls `(time, payload)`
through the event-loop semantics, letting the trailing timer (if any)
fire at the end.  Returns every actual execution `(time, payload)` in
order. -/
def RateLimiter.runAndFlush : RateLimiter α → List (Nat × α) → List (Nat × α)
  | s, [] => s.flush
  | s, (t, fn) :: rest =>
      (s.step t fn).2 ++ RateLimiter.runAndFlush (s.step t fn).1 rest

@[simp] lemma runAndFlush_nil (s : RateLimiter α) : s.runAndFlush [] = s.flush := rfl

@[simp] lemma runAndFlush_cons (s : RateLimiter α) (t : Nat) (fn : α)
    (rest : List (Nat × α)) :
    s.runAndFlush ((t, fn) :: rest)
      = (s.step t fn).2 ++ RateLimiter.runAndFlush (s.step t fn).1 rest := rfl

/-- Ceiling division on naturals, `⌈a / b⌉`. -/
def ceilDiv (a b : Nat) : Nat := (a + b - 1) / b

/-- A list of time points that are pairwise at least `I` apart and all lie
in `[lo, hi]` has at most `(hi - lo) / I + 1` elements. -/
lemma spaced_length_le {I : Nat} (hI : 0 < I) (l : List Nat) :
    ∀ lo hi : Nat,
      l.Pairwise (fun x y => x + I ≤ y) →
      (∀ x ∈ l, lo ≤ x) → (∀ x ∈ l, x ≤ hi) →
      l.length ≤ (hi - lo) / I + 1 := by
  induction l with
  | nil => intro lo hi _ _ _; simp
  | cons x xs ih =>
    intro lo hi hp hlo hhi
    rcases List.pairwise_cons.mp hp with ⟨hx, hxs⟩
    cases xs with
    | nil => simp
    | cons y ys =>
      have h1 : (y :: ys).length ≤ (hi - (x + I)) / I + 1 :=
        ih (x + I) hi hxs (fun z hz => hx z hz)
          (fun z hz => hhi z (List.mem_cons_of_mem _ hz))
      have hyhi : y ≤ hi := hhi y (by simp)
      have hxy : x + I ≤ y := hx y (by simp)
      have hxlo : lo ≤ x := hlo x (by simp)
      have key : (hi - (x + I)) / I + 1 ≤ (hi - lo) / I := by
        rw [← Nat.add_div_right _ hI]
        have h3 : hi - (x + I) + I = hi - x := by omega
        rw [h3]
        exact Nat.div_le_div_right (by omega)
      calc (x :: y :: ys).length = (y :: ys).length + 1 := rfl
        _ ≤ ((hi - (x + I)) / I + 1) + 1 := Nat.add_le_add_right h1 1
        _ ≤ (hi - lo) / I + 1 := Nat.add_le_add_right key 1

/-- Behaviour of one `execute` call: the interval is preserved, an armed
timer is always scheduled exactly `minInterval` after the recorded last
execution, the recorded last execution never exceeds the current time,
and the emitted execution (if any) extends an `I`-spaced chain. -/
lemma execute_spec {α : Type} {I : Nat} (s : RateLimiter α) (t : Nat) (fn : α)
    (hmin : s.minInterval = I) (hle : s.lastExecutionTime ≤ t) :
    (s.execute t fn).1.minInterval = I ∧
    (∀ tf, (s.execute t fn).1.timeoutId = some tf →
        tf = (s.execute t fn).1.lastExecutionTime + I) ∧
    (s.execute t fn).1.lastExecutionTime ≤ t ∧
    (∀ l : List Nat,
        List.Chain (fun x y => x + I ≤ y) (s.execute t fn).1.lastExecutionTime l →
        List.Chain (fun x y => x + I ≤ y) s.lastExecutionTime
          ((s.execute t fn).2.toList.map Prod.fst ++ l)) := by
  simp only [RateLimiter.execute]
  by_cases h : s.minInterval ≤ t - s.lastExecutionTime
  · rw [if_pos h]
    refine ⟨hmin, by simp, le_refl t, ?_⟩
    intro l hl
    simp only [Option.toList_some, List.map_cons, List.map_nil, List.cons_append,
      List.nil_append]
    exact List.Chain.cons (by omega) hl
  · rw [if_neg h]
    refine ⟨hmin, ?_, hle, ?_⟩
    · intro tf htf
      simp only [Option.some.injEq] at htf
      simp only [← htf, hmin] at *
      omega
    · intro l hl
      simpa using hl

/-- Behaviour of the timer callback fired at its scheduled time `tf`:
fields are preserved or advanced towards `tf`, and the emitted execution
(if any) extends an `I`-spaced chain. -/
lemma fireTimeout_spec {α : Type} {I : Nat} (s : RateLimiter α) (tf : Nat)
    (heq : tf = s.lastExecutionTime + I) :
    (s.fireTimeout tf).1.minInterval = s.minInterval ∧
    s.lastExecutionTime ≤ (s.fireTimeout tf).1.lastExecutionTime ∧
    (s.fireTimeout tf).1.lastExecutionTime ≤ tf ∧
    (∀ l : List Nat,
        List.Chain (fun x y => x + I ≤ y) (s.fireTimeout tf).1.lastExecutionTime l →
        List.Chain (fun x y => x + I ≤ y) s.lastExecutionTime
          ((s.fireTimeout tf).2.toList.map Prod.fst ++ l)) := by
  obtain ⟨mi, le, ti, qe⟩ := s
  simp only [RateLimiter.fireTimeout] at *
  cases qe with
  | some fn =>
    refine ⟨rfl, by simp; omega, by simp, ?_⟩
    intro l hl
    simp only [Option.toList_some, List.map_cons, List.map_nil, List.cons_append,
      List.nil_append] at *
    exact List.Chain.cons (by omega) hl
  | none =>
    refine ⟨rfl, le_refl _, by simp; omega, ?_⟩
    intro l hl
    simpa using hl

/-- Behaviour of one event-loop step: a due timer fires first, then the
`execute` call runs.  Same invariants and chain-extension property as the
individual operations. -/
lemma step_spec {α : Type} {I : Nat} (s : RateLimiter α) (t : Nat) (fn : α)
    (hmin : s.minInterval = I)
    (htf : ∀ tf, s.timeoutId = some tf → tf = s.lastExecutionTime + I)
    (hle : s.lastExecutionTime ≤ t) :
    (s.step t fn).1.minInterval = I ∧
    (∀ tf, (s.step t fn).1.timeoutId = some tf →
        tf = (s.step t fn).1.lastExecutionTime + I) ∧
    (s.step t fn).1.lastExecutionTime ≤ t ∧
    (∀ l : List Nat,
        List.Chain (fun x y => x + I ≤ y) (s.step t fn).1.lastExecutionTime l →
        List.Chain (fun x y => x + I ≤ y) s.lastExecutionTime
          ((s.step t fn).2.map Prod.fst ++ l)) := by
  unfold RateLimiter.step
  cases hti : s.timeoutId with
  | none =>
    obtain ⟨h1, h2, h3, h4⟩ := execute_spec (I := I) s t fn hmin hle
    exact ⟨h1, h2, h3, h4⟩
  | some tf =>
    dsimp only
    by_cases hdue : tf ≤ t
    · rw [if_pos hdue]
      obtain ⟨f1, f2, f3, f4⟩ := fireTimeout_spec (I := I) s tf (htf tf hti)
      obtain ⟨e1, e2, e3, e4⟩ :=
        execute_spec (I := I) (s.fireTimeout tf).1 t fn (f1.trans hmin)
          (f3.trans hdue)
      refine ⟨e1, e2, e3, ?_⟩
      intro l hl
      have h := f4 _ (e4 l hl)
      simpa [List.append_assoc] using h
    · rw [if_neg hdue]
      obtain ⟨h1, h2, h3, h4⟩ := execute_spec (I := I) s t fn hmin hle
      exact ⟨h1, h2, h3, h4⟩

/-- Along any time-ordered sequence of `execute` calls, the actual
executions (including the trailing deferred fire) are chained at least
`minInterval` apart starting from the initial `lastExecutionTime`. -/
lemma runAndFlush_chain {α : Type} {I : Nat} :
    ∀ (calls : List (Nat × α)) (s : RateLimiter α),
      s.minInterval = I →
      (∀ tf, s.timeoutId = some tf → tf = s.lastExecutionTime + I) →
      (calls.map Prod.fst).Pairwise (· ≤ ·) →
      (∀ c ∈ calls, s.lastExecutionTime ≤ c.1) →
      List.Chain (fun x y => x + I ≤ y) s.lastExecutionTime
        ((s.runAndFlush calls).map Prod.fst)
  | [], s, hmin, htf, _, _ => by
    simp only [runAndFlush_nil, RateLimiter.flush]
    cases hti : s.timeoutId with
    | none => simp only [List.map_nil]; exact List.Chain.nil
    | some tf =>
      obtain ⟨f1, f2, f3, f4⟩ := fireTimeout_spec (I := I) s tf (htf tf hti)
      have h := f4 [] List.Chain.nil
      simpa using h
  | (t, fn) :: rest, s, hmin, htf, hsorted, hcalls => by
    simp only [runAndFlush_cons, List.map_append]
    obtain ⟨s1min, s1tf, s1le, s1chain⟩ :=
      step_spec (I := I) s t fn hmin htf (hcalls (t, fn) (by simp))
    have hs : (t :: rest.map Prod.fst).Pairwise (· ≤ ·) := by simpa using hsorted
    have hsorted' : (rest.map Prod.fst).Pairwise (· ≤ ·) :=
      (List.pairwise_cons.mp hs).2
    have hhead : ∀ c ∈ rest, t ≤ c.1 := fun c hc =>
      (List.pairwise_cons.mp hs).1 c.1 (List.mem_map_of_mem _ hc)
    have ih := runAndFlush_chain rest (s.step t fn).1 s1min s1tf hsorted'
      (fun c hc => le_trans s1le (hhead c hc))
    exact s1chain _ ih

/-- Transitivity transfer: a chain of `I`-spaced time points is pairwise
`I`-spaced. -/
lemma chain_spaced_pairwise {I a : Nat} {l : List Nat}
    (h : List.Chain (fun x y => x + I ≤ y) a l) :
    l.Pairwise (fun x y => x + I ≤ y) := by
  haveI : IsTrans Nat (fun x y => x + I ≤ y) := ⟨fun a b c h1 h2 => by omega⟩
  exact (List.pairwise_cons.mp (List.chain_iff_pairwise.mp h)).2

/-- After one `execute` call followed by letting timers run out, the last
actual execution carries that call's payload. -/
lemma step_flush_last {α : Type} (s : RateLimiter α) (t : Nat) (fn : α) :
    ∃ te, ((s.step t fn).2 ++ (s.step t fn).1.flush).getLast? = some (te, fn) := by
  obtain ⟨mi, le, ti, qe⟩ := s
  cases ti with
  | none =>
    by_cases h2 : mi ≤ t - le
    · exact ⟨t, by simp [RateLimiter.step, RateLimiter.execute, RateLimiter.flush,
        RateLimiter.fireTimeout, h2]⟩
    · exact ⟨t + (mi - (t - le)), by simp [RateLimiter.step, RateLimiter.execute,
        RateLimiter.flush, RateLimiter.fireTimeout, h2]⟩
  | some tf =>
    cases qe with
    | none =>
      by_cases hdue : tf ≤ t <;> by_cases h2 : mi ≤ t - le
      · exact ⟨t, by simp [RateLimiter.step, RateLimiter.execute, RateLimiter.flush,
          RateLimiter.fireTimeout, hdue, h2]⟩
      · exact ⟨t + (mi - (t - le)), by simp [RateLimiter.step, RateLimiter.execute,
          RateLimiter.flush, RateLimiter.fireTimeout, hdue, h2]⟩
      · exact ⟨t, by simp [RateLimiter.step, RateLimiter.execute, RateLimiter.flush,
          RateLimiter.fireTimeout, hdue, h2]⟩
      · exact ⟨t + (mi - (t - le)), by simp [RateLimiter.step, RateLimiter.execute,
          RateLimiter.flush, RateLimiter.fireTimeout, hdue, h2]⟩
    | some q =>
      by_cases hdue : tf ≤ t
      · by_cases h2 : mi ≤ t - tf
        · exact ⟨t, by simp [RateLimiter.step, RateLimiter.execute, RateLimiter.flush,
            RateLimiter.fireTimeout, hdue, h2]⟩
        · exact ⟨t + (mi - (t - tf)), by simp [RateLimiter.step, RateLimiter.execute,
            RateLimiter.flush, RateLimiter.fireTimeout, hdue, h2]⟩
      · by_cases h2 : mi ≤ t - le
        · exact ⟨t, by simp [RateLimiter.step, RateLimiter.execute, RateLimiter.flush,
            RateLimiter.fireTimeout, hdue, h2]⟩
        · exact ⟨t + (mi - (t - le)), by simp [RateLimiter.step, RateLimiter.execute,
            RateLimiter.flush, RateLimiter.fireTimeout, hdue, h2]⟩

/-- The final actual execution of a run carries the payload of the last
`execute` call. -/
lemma runAndFlush_getLast {α : Type} :
    ∀ (calls : List (Nat × α)) (s : RateLimiter α) (t : Nat) (fn : α),
      calls.getLast? = some (t, fn) →
      ∃ te, (s.runAndFlush calls).getLast? = some (te, fn)
  | [], _, _, _, h => by simp at h
  | [(t0, f0)], s, t, fn, h => by
    simp only [List.getLast?_singleton, Option.some.injEq, Prod.mk.injEq] at h
    obtain ⟨rfl, rfl⟩ := h
    exact step_flush_last s t0 f0
  | (t0, f0) :: c1 :: rest, s, t, fn, h => by
    have h' : (c1 :: rest).getLast? = some (t, fn) := by
      simpa [List.getLast?_cons_cons] using h
    obtain ⟨te, hte⟩ := runAndFlush_getLast (c1 :: rest) (s.step t0 f0).1 t fn h'
    refine ⟨te, ?_⟩
    rw [runAndFlush_cons,
      List.getLast?_append_of_ne_nil _ (by intro hnil; rw [hnil] at hte; simp at hte)]
    exact hte

/-- C1: for every time-ordered sequence of `execute` calls on a fresh
rate limiter with minimum interval `I`, the number of actual `work`
executions (counting deferred timer fires) inside any closed time window
`[a, a + T]` is at most `⌈T / I⌉ + 1`; and the payload of the last call
(which no later call supersedes) is the one that eventually executes —
it is the final actual execution, either immediate or at the deferred
fire time. -/
theorem rateLimiter_window_bound_and_last_payload {α : Type}
    (I a T : Nat) (hI : 0 < I) (calls : List (Nat × α))
    (hsorted : (calls.map Prod.fst).Pairwise (· ≤ ·)) :
    (((RateLimiter.new I).runAndFlush calls).filter
        (fun e => decide (a ≤ e.1 ∧ e.1 ≤ a + T))).length ≤ ceilDiv T I + 1
    ∧ (∀ tl fl, calls.getLast? = some (tl, fl) →
        ∃ te, ((RateLimiter.new I).runAndFlush calls).getLast? = some (te, fl)) := by
  constructor
  · have hchain := runAndFlush_chain (I := I) calls (RateLimiter.new I) rfl
      (by intro tf h; simp [RateLimiter.new] at h)
      hsorted (by intro c _; exact Nat.zero_le _)
    have hpw := chain_spaced_pairwise hchain
    set execs := (RateLimiter.new I).runAndFlush calls with hexecs
    set p : Nat × α → Bool := fun e => decide (a ≤ e.1 ∧ e.1 ≤ a + T) with hp
    have hsub : List.Sublist ((execs.filter p).map Prod.fst) (execs.map Prod.fst) :=
      (List.filter_sublist execs).map Prod.fst
    have hpw' := hpw.sublist hsub
    have hbounds : ∀ x ∈ (execs.filter p).map Prod.fst, a ≤ x ∧ x ≤ a + T := by
      intro x hx
      obtain ⟨e, he, rfl⟩ := List.mem_map.mp hx
      have := (List.mem_filter.mp he).2
      simpa [hp] using of_decide_eq_true this
    have hlen := spaced_length_le hI ((execs.filter p).map Prod.fst) a (a + T)
      hpw' (fun x hx => (hbounds x hx).1) (fun x hx => (hbounds x hx).2)
    have hdiv : (a + T - a) / I ≤ ceilDiv T I := by
      have h1 : a + T - a = T := by omega
      rw [h1]
      exact Nat.div_le_div_right (by omega)
    calc (execs.filter p).length = ((execs.filter p).map Prod.fst).length :=
          (List.length_map _ _).symm
      _ ≤ (a + T - a) / I + 1 := hlen
      _ ≤ ceilDiv T I + 1 := Nat.add_le_add_right hdiv 1
  · intro tl fl h
    exact runAndFlush_getLast calls (RateLimiter.new I) tl fl h

/-- Witness for `rateLimiter_window_bound_and_last_payload` at `I = 300`,
window `[1000, 1600]`, calls at clock times 1000, 1050, 1600. -/
theorem rateLimiter_window_bound_and_last_payload_witness :
    (0 < 300 ∧ (([(1000, 0), (1050, 1), (1600, 2)] : List (Nat × Nat)).map
        Prod.fst).Pairwise (· ≤ ·))
    ∧ ((((RateLimiter.new 300).runAndFlush
          ([(1000, 0), (1050, 1), (1600, 2)] : List (Nat × Nat))).filter
          (fun e => decide (1000 ≤ e.1 ∧ e.1 ≤ 1000 + 600))).length
            ≤ ceilDiv 600 300 + 1
        ∧ (∀ tl fl, ([(1000, 0), (1050, 1), (1600, 2)] :
              List (Nat × Nat)).getLast? = some (tl, fl) →
            ∃ te, ((RateLimiter.new 300).runAndFlush
              ([(1000, 0), (1050, 1), (1600, 2)] : List (Nat × Nat))).getLast?
                = some (te, fl))) :=
  ⟨⟨by decide, by decide⟩,
    rateLimiter_window_bound_and_last_payload 300 1000 600 (by decide)
      [(1000, 0), (1050, 1), (1600, 2)] (by decide)⟩

/-- C2 counterexample: with `I = 300` and calls at clock times 1000,
1050, 1600 (i.e. relative times 0, 50, 600 on a clock whose `Date.now()`
is 1000 at the first call), the work function runs three times, not two:
the call at relative time 50 arms a deferred execution that fires at
relative time 300 and is never superseded. -/
theorem rateLimiter_scenario_two_executions_false :
    (RateLimiter.new 300).runAndFlush ([(1000, 0), (1050, 1), (1600, 2)] :
        List (Nat × Nat)) = [(1000, 0), (1300, 1), (1600, 2)]
    ∧ ((RateLimiter.new 300).runAndFlush ([(1000, 0), (1050, 1), (1600, 2)] :
        List (Nat × Nat))).length ≠ 2 := by
  constructor
  · decide
  · decide

/-- C2 amended: limiter with `I = 300` ms and calls at relative times 0,
50 and 600: the work function runs exactly three times — immediately at
t = 0, at t = 300 when the deferred execution armed by the t = 50 call
fires (nothing supersedes it), and immediately at t = 600 (elapsed since
the t = 300 fire is exactly 300 ≥ I). -/
theorem rateLimiter_scenario_three_executions :
    (RateLimiter.new 300).runAndFlush ([(1000, 0), (1050, 1), (1600, 2)] :
        List (Nat × Nat)) = [(1000, 0), (1300, 1), (1600, 2)] := by
  decide

/-- C8: after `cancel()` no timer is armed, so no armed deferred
execution ever runs (flushing timers emits nothing), and until `execute`
is called again the only way the limiter emits an execution is through
that very `execute` call. -/
theorem rateLimiter_cancel_blocks_executions {α : Type} (s : RateLimiter α) :
    s.cancel.timeoutId = none
    ∧ s.cancel.flush = []
    ∧ ∀ (t : Nat) (fn : α),
        s.cancel.step t fn = ((s.cancel.execute t fn).1,
          (s.cancel.execute t fn).2.toList) := by
  have h : s.cancel.timeoutId = none := by
    unfold RateLimiter.cancel
    cases h2 : s.timeoutId <;> simp [h2]
  refine ⟨h, ?_, ?_⟩
  · unfold RateLimiter.flush
    rw [h]
  · intro t fn
    unfold RateLimiter.step
    rw [h]

/-! ### `executeAsync` and promise settlement (C9)

`executeAsync(fn)` wraps `fn` in a thunk that, when it actually runs,
awaits `fn` and resolves the caller's promise with the result or rejects
it with the failure.  We model one promise per call, identified by the
call's payload tag; `work` maps a tag to the `Except` outcome of that
call's `fn`.  Running the execution trace settles, for each wrapper that
actually ran, the corresponding promise (a promise can settle only once;
later `resolve`/`reject` calls are no-ops). -/

/-- Final promise states after the executions in `execs` have run: fold
`resolve result` / `reject error` over the trace. -/
def settlePromises {β ε ρ : Type} [DecidableEq β] (work : β → Except ε ρ)
    (execs : List (Nat × β)) : β → Option (Except ε ρ) :=
  execs.foldl
    (fun m e k =>
      if k = e.2 then
        match m k with
        | some r => some r
        | none => some (work e.2)
      else m k)
    (fun _ => none)

/-- Closed form of the promise fold: a tag's promise is settled with that
tag's work outcome exactly when the tag appears in the execution trace. -/
lemma settlePromises_eq {β ε ρ : Type} [DecidableEq β] (work : β → Except ε ρ) :
    ∀ (execs : List (Nat × β)) (m : β → Option (Except ε ρ)) (k : β),
      execs.foldl
        (fun m e k =>
          if k = e.2 then
            match m k with
            | some r => some r
            | none => some (work e.2)
          else m k) m k
      = match m k with
        | some r => some r
        | none => if k ∈ execs.map Prod.snd then some (work k) else none
  | [], m, k => by cases h : m k <;> simp [h]
  | e :: es, m, k => by
    rw [List.foldl_cons, settlePromises_eq work es]
    by_cases hk : k = e.2
    · subst hk
      cases h : m e.2 with
      | some r => simp [h]
      | none => simp [h]
    · cases h : m k with
      | some r => simp [h, hk]
      | none =>
        by_cases hmem : k ∈ es.map Prod.snd <;>
          simp [h, hk, hmem, List.mem_cons]

/-- Per-step payload conservation: the payloads emitted by one event-loop
step, together with the payload still queued afterwards, are drawn from
the payload queued before plus the payload of the call itself. -/
lemma step_count {β : Type} [DecidableEq β] (s : RateLimiter β) (t : Nat)
    (fn : β) (p : β) :
    List.count p ((s.step t fn).2.map Prod.snd)
      + List.count p ((s.step t fn).1.queuedExecution.toList)
    ≤ List.count p (s.queuedExecution.toList) + List.count p [fn] := by
  obtain ⟨mi, le, ti, qe⟩ := s
  cases ti with
  | none =>
    by_cases h2 : mi ≤ t - le <;>
      simp [RateLimiter.step, RateLimiter.execute, RateLimiter.fireTimeout, h2,
        List.count_cons, List.count_nil] <;>
      omega
  | some tf =>
    cases qe with
    | none =>
      by_cases hdue : tf ≤ t <;> by_cases h2 : mi ≤ t - le <;>
        simp [RateLimiter.step, RateLimiter.execute, RateLimiter.fireTimeout,
          hdue, h2, List.count_cons, List.count_nil] <;> omega
    | some q =>
      by_cases hdue : tf ≤ t
      · by_cases h2 : mi ≤ t - tf <;>
          simp [RateLimiter.step, RateLimiter.execute, RateLimiter.fireTimeout,
            hdue, h2, List.count_cons, List.count_nil] <;> omega
      · by_cases h2 : mi ≤ t - le <;>
          simp [RateLimiter.step, RateLimiter.execute, RateLimiter.fireTimeout,
            hdue, h2, List.count_cons, List.count_nil] <;> omega

/-- Payload conservation for a whole run: no payload is executed more
often than it was passed in (counting a payload still queued at start). -/
lemma runAndFlush_count {β : Type} [DecidableEq β] (p : β) :
    ∀ (calls : List (Nat × β)) (s : RateLimiter β),
      List.count p ((s.runAndFlush calls).map Prod.snd)
        ≤ List.count p (s.queuedExecution.toList) + List.count p (calls.map Prod.snd)
  | [], s => by
    obtain ⟨mi, le, ti, qe⟩ := s
    cases ti with
    | none => simp [RateLimiter.flush]
    | some tf =>
      cases qe with
      | none => simp [RateLimiter.flush, RateLimiter.fireTimeout]
      | some q => simp [RateLimiter.flush, RateLimiter.fireTimeout]
  | (t, fn) :: rest, s => by
    have hstep := step_count s t fn p
    have ih := runAndFlush_count p rest (s.step t fn).1
    rw [runAndFlush_cons, List.map_append, List.count_append]
    simp only [List.map_cons, List.count_cons, List.count_append, List.count_nil] at *
    omega

/-- C9: on a fresh limiter fed distinct call tags, each call's wrapper
runs at most once (the executed tags are distinct and drawn from the
calls); a call's promise is settled — with exactly that call's
result-or-failure — if and only if that call's wrapper actually ran; a
superseded call (whose wrapper never ran) leaves its promise forever
unsettled. -/
theorem rateLimiter_executeAsync_settles_iff {β ε ρ : Type} [DecidableEq β]
    (work : β → Except ε ρ) (I : Nat) (calls : List (Nat × β))
    (hnodup : (calls.map Prod.snd).Nodup) :
    (((RateLimiter.new I).runAndFlush calls).map Prod.snd).Nodup
    ∧ (∀ k, k ∈ ((RateLimiter.new I).runAndFlush calls).map Prod.snd →
        k ∈ calls.map Prod.snd)
    ∧ (∀ k, settlePromises work ((RateLimiter.new I).runAndFlush calls) k
          = some (work k)
        ↔ k ∈ ((RateLimiter.new I).runAndFlush calls).map Prod.snd)
    ∧ (∀ k, k ∉ ((RateLimiter.new I).runAndFlush calls).map Prod.snd →
        settlePromises work ((RateLimiter.new I).runAndFlush calls) k = none) := by
  have hcount : ∀ p : β,
      List.count p (((RateLimiter.new I).runAndFlush calls).map Prod.snd)
        ≤ List.count p (calls.map Prod.snd) := by
    intro p
    have h := runAndFlush_count p calls (RateLimiter.new I)
    simpa [RateLimiter.new] using h
  refine ⟨?_, ?_, ?_, ?_⟩
  · rw [List.nodup_iff_count_le_one]
    intro p
    exact le_trans (hcount p) (List.nodup_iff_count_le_one.mp hnodup p)
  · intro k hk
    have h1 : 0 < List.count k (((RateLimiter.new I).runAndFlush calls).map Prod.snd) :=
      List.count_pos_iff.mpr hk
    exact List.count_pos_iff.mp (lt_of_lt_of_le h1 (hcount k))
  · intro k
    rw [settlePromises, settlePromises_eq work]
    by_cases hk : k ∈ ((RateLimiter.new I).runAndFlush calls).map Prod.snd <;>
      simp [hk]
  · intro k hk
    rw [settlePromises, settlePromises_eq work]
    simp [hk]

/-- Witness for `rateLimiter_executeAsync_settles_iff` with tags 0, 1, 2
and a work function failing on tag 1. -/
theorem rateLimiter_executeAsync_settles_iff_witness :
    (([(1000, 0), (1050, 1), (1600, 2)] : List (Nat × Nat)).map Prod.snd).Nodup
    ∧ ((((RateLimiter.new 300).runAndFlush
          ([(1000, 0), (1050, 1), (1600, 2)] : List (Nat × Nat))).map Prod.snd).Nodup
      ∧ (∀ k, k ∈ ((RateLimiter.new 300).runAndFlush
            ([(1000, 0), (1050, 1), (1600, 2)] : List (Nat × Nat))).map Prod.snd →
          k ∈ ([(1000, 0), (1050, 1), (1600, 2)] : List (Nat × Nat)).map Prod.snd)
      ∧ (∀ k, settlePromises (fun k => if k = 1 then Except.error () else Except.ok k)
            ((RateLimiter.new 300).runAndFlush
              ([(1000, 0), (1050, 1), (1600, 2)] : List (Nat × Nat))) k
            = some (if k = 1 then Except.error () else Except.ok k)
          ↔ k ∈ ((RateLimiter.new 300).runAndFlush
              ([(1000, 0), (1050, 1), (1600, 2)] : List (Nat × Nat))).map Prod.snd)
      ∧ (∀ k, k ∉ ((RateLimiter.new 300).runAndFlush
            ([(1000, 0), (1050, 1), (1600, 2)] : List (Nat × Nat))).map Prod.snd →
          settlePromises (fun k => if k = 1 then Except.error () else Except.ok k)
            ((RateLimiter.new 300).runAndFlush
              ([(1000, 0), (1050, 1), (1600, 2)] : List (Nat × Nat))) k = none)) :=
  ⟨by decide,
    rateLimiter_executeAsync_settles_iff
      (fun k => if k = 1 then Except.error () else Except.ok k) 300
      [(1000, 0), (1050, 1), (1600, 2)] (by decide)⟩

/-! ## Cache manager (`src/lib/cache-manager.ts`, class `CacheManager`)

A JS `Map<string, δ>` is modelled as an association list in insertion
order: `set` on a fresh key appends, `set` on an existing key updates the
entry in place, `delete` removes it, `size` is the number of entries.
The decoration payload `Map<number, IDecoration[]>` is abstracted as a
type parameter `δ`. -/

/-- `Map.has`. -/
def mapHas {δ : Type} (m : List (String × δ)) (k : String) : Bool :=
  m.any (fun e => e.1 == k)

/-- `Map.get` (`undefined` = `none`). -/
def mapGet {δ : Type} (m : List (String × δ)) (k : String) : Option δ :=
  (m.find? (fun e => e.1 == k)).map Prod.snd

/-- `Map.set`. -/
def mapSet {δ : Type} (m : List (String × δ)) (k : String) (v : δ) :
    List (String × δ) :=
  if mapHas m k then m.map (fun e => if e.1 == k then (k, v) else e)
  else m ++ [(k, v)]

/-- `Map.delete`. -/
def mapDelete {δ : Type} (m : List (String × δ)) (k : String) :
    List (String × δ) :=
  m.eraseP (fun e => e.1 == k)

/-- State of the `CacheManager` singleton: the two partitions
(`_dirtyCache` / `_decorationsCache`), their LRU order arrays, and the
`MAX_CACHE_SIZE` bound (100 in the source; carried as a field so the
claims about a partition of capacity `N` can be stated for the same
algorithm). -/
structure CacheManager (δ : Type) where
  dirtyCache : List (String × δ)
  decorationsCache : List (String × δ)
  dirtyCacheLRU : List String
  decorationsCacheLRU : List String
  maxCacheSize : Nat
deriving DecidableEq

/-- The freshly constructed `CacheManager`. -/
def CacheManager.new (δ : Type) : CacheManager δ :=
  ⟨[], [], [], [], 100⟩

/-- `_updateLRU(lruArray, fileName)`: splice out the first occurrence of
`fileName` if present, then push it at the end (most recently used). -/
def updateLRU (lruArray : List String) (fileName : String) : List String :=
  lruArray.erase fileName ++ [fileName]

/-- `getCachedDecorations(document)`: for a non-dirty document present in
the saved partition, promote it in that partition's LRU and return it;
otherwise fall back to the dirty partition; otherwise `undefined`. -/
def CacheManager.getCachedDecorations {δ : Type} (s : CacheManager δ)
    (fileName : String) (isDirty : Bool) : CacheManager δ × Option δ :=
  if !isDirty && mapHas s.decorationsCache fileName then
    ({ s with decorationsCacheLRU := updateLRU s.decorationsCacheLRU fileName },
      mapGet s.decorationsCache fileName)
  else if mapHas s.dirtyCache fileName then
    ({ s with dirtyCacheLRU := updateLRU s.dirtyCacheLRU fileName },
      mapGet s.dirtyCache fileName)
  else (s, none)

/-- The common body of `_saveDirtyDecoration` / `_saveSavedDecorations`
acting on one partition `(cache, lru)`: if the partition is at capacity
and the key is new, `shift` the LRU head and delete it from the map —
faithfully to the source, the `if (lruFile)` guard skips the delete when
the shifted head is the empty string (falsy in JS) although the `shift`
already happened; then promote the key in the LRU and `set` the entry. -/
def evictIfNeeded {δ : Type} (maxN : Nat) (cache : List (String × δ))
    (lru : List String) (fileName : String) : List (String × δ) × List String :=
  if maxN ≤ cache.length ∧ mapHas cache fileName = false then
    match lru with
    | [] => (cache, lru)
    | lruFile :: rest =>
        if lruFile ≠ "" then (mapDelete cache lruFile, rest) else (cache, rest)
  else (cache, lru)

def savePartition {δ : Type} (maxN : Nat) (cache : List (String × δ))
    (lru : List String) (fileName : String) (decorations : δ) :
    List (String × δ) × List String :=
  let evicted := evictIfNeeded maxN cache lru fileName
  (mapSet evicted.1 fileName decorations, updateLRU evicted.2 fileName)

/-- `saveDecorations(document, deco)`: route to the dirty or saved
partition according to `document.isDirty`. -/
def CacheManager.saveDecorations {δ : Type} (s : CacheManager δ)
    (fileName : String) (isDirty : Bool) (deco : δ) : CacheManager δ :=
  if isDirty then
    let r := savePartition s.maxCacheSize s.dirtyCache s.dirtyCacheLRU fileName deco
    { s with dirtyCache := r.1, dirtyCacheLRU := r.2 }
  else
    let r := savePartition s.maxCacheSize s.decorationsCache s.decorationsCacheLRU
      fileName deco
    { s with decorationsCache := r.1, decorationsCacheLRU := r.2 }

/-- `clearCache()`: empty both partitions and both LRU arrays. -/
def CacheManager.clearCache {δ : Type} (s : CacheManager δ) : CacheManager δ :=
  { s with dirtyCache := [], decorationsCache := [],
           dirtyCacheLRU := [], decorationsCacheLRU := [] }

/-! ### Key-level facts about the map model -/

lemma mapHas_iff {δ : Type} (m : List (String × δ)) (k : String) :
    mapHas m k = true ↔ k ∈ m.map Prod.fst := by
  simp [mapHas, List.any_eq_true, List.mem_map]

lemma mapHas_eq_false_iff {δ : Type} (m : List (String × δ)) (k : String) :
    mapHas m k = false ↔ k ∉ m.map Prod.fst := by
  rw [← mapHas_iff]
  cases mapHas m k <;> simp

lemma mapSet_keys_of_has {δ : Type} {m : List (String × δ)} {k : String}
    (v : δ) (h : mapHas m k = true) :
    (mapSet m k v).map Prod.fst = m.map Prod.fst := by
  rw [mapSet, if_pos h, List.map_map]
  refine List.map_congr_left ?_
  intro e _
  by_cases he : e.1 = k <;> simp [he]

lemma mapSet_keys_of_not_has {δ : Type} {m : List (String × δ)} {k : String}
    (v : δ) (h : mapHas m k = false) :
    (mapSet m k v).map Prod.fst = m.map Prod.fst ++ [k] := by
  rw [mapSet, if_neg (by simp [h])]
  simp

lemma mapDelete_keys {δ : Type} (m : List (String × δ)) (h : String) :
    (mapDelete m h).map Prod.fst = (m.map Prod.fst).erase h := by
  have hf : ((h == ·) : String → Bool) = (fun a => a == h) := by
    funext a
    by_cases hah : a = h
    · simp [hah]
    · have hne2 : ¬h = a := fun h2 => hah h2.symm
      have h1 : (h == a) = false := by simp [hne2]
      have h2 : (a == h) = false := by simp [hah]
      rw [h1, h2]
  rw [List.erase_eq_eraseP, hf]
  induction m with
  | nil => rfl
  | cons e es ih =>
    simp only [mapDelete, List.eraseP_cons, List.map_cons]
    by_cases he : (e.1 == h) = true
    · simp [he]
    · simp only [he, cond_false, List.map_cons]
      exact congrArg (List.cons e.1) ih

lemma mem_keys_mapSet {δ : Type} {m : List (String × δ)} {k f : String} (v : δ)
    (h : k ∈ m.map Prod.fst) : k ∈ (mapSet m f v).map Prod.fst := by
  cases hh : mapHas m f with
  | true => rw [mapSet_keys_of_has v hh]; exact h
  | false => rw [mapSet_keys_of_not_has v hh]; exact List.mem_append_left _ h

/-! ### Facts about `_updateLRU` -/

lemma updateLRU_mem {lru : List String} (hnd : lru.Nodup) (f k : String) :
    k ∈ updateLRU lru f ↔ k ∈ lru ∨ k = f := by
  simp only [updateLRU, List.mem_append, List.mem_singleton, hnd.mem_erase_iff]
  by_cases hk : k = f <;> simp [hk] <;> tauto

lemma updateLRU_nodup {lru : List String} (hnd : lru.Nodup) (f : String) :
    (updateLRU lru f).Nodup := by
  rw [updateLRU, List.nodup_append]
  refine ⟨hnd.erase f, List.nodup_singleton f, ?_⟩
  intro a ha hmem
  simp only [List.mem_singleton] at hmem
  subst hmem
  exact ((hnd.mem_erase_iff.mp ha).1 rfl)

lemma updateLRU_ne_empty {lru : List String} (hne : ∀ k ∈ lru, k ≠ "")
    {f : String} (hf : f ≠ "") : ∀ k ∈ updateLRU lru f, k ≠ "" := by
  intro k hk
  rcases List.mem_append.mp hk with h | h
  · exact hne k (List.mem_of_mem_erase h)
  · simp only [List.mem_singleton] at h; subst h; exact hf

/-! ### The partition invariant (C5) -/

/-- Invariant of one cache partition: the LRU array holds each key
exactly once, the map's keys are distinct, and the key set of the map
equals the entry set of the LRU array. -/
def PartitionInv {δ : Type} (cache : List (String × δ)) (lru : List String) : Prop :=
  lru.Nodup ∧ (cache.map Prod.fst).Nodup ∧
    ∀ k, k ∈ cache.map Prod.fst ↔ k ∈ lru

/-- Promoting a key that is present in the LRU preserves the invariant. -/
lemma promote_inv {δ : Type} {cache : List (String × δ)} {lru : List String}
    (hinv : PartitionInv cache lru) {f : String} (hf : f ∈ lru) :
    PartitionInv cache (updateLRU lru f) := by
  obtain ⟨hlnd, hknd, hmem⟩ := hinv
  refine ⟨updateLRU_nodup hlnd f, hknd, ?_⟩
  intro k
  rw [hmem, updateLRU_mem hlnd]
  constructor
  · exact Or.inl
  · rintro (h | rfl)
    · exact h
    · exact hf

/-- Setting a key and promoting it preserves the invariant. -/
lemma setAndPromote_inv {δ : Type} {cache : List (String × δ)} {lru : List String}
    (hinv : PartitionInv cache lru) (f : String) (v : δ) :
    PartitionInv (mapSet cache f v) (updateLRU lru f) := by
  obtain ⟨hlnd, hknd, hmem⟩ := hinv
  cases hh : mapHas cache f with
  | true =>
    have hfl : f ∈ lru := (hmem f).mp ((mapHas_iff _ _).mp hh)
    have hkeys := mapSet_keys_of_has (m := cache) (k := f) v hh
    refine ⟨updateLRU_nodup hlnd f, ?_, ?_⟩
    · rw [hkeys]; exact hknd
    · intro k
      rw [hkeys, hmem, updateLRU_mem hlnd]
      constructor
      · exact Or.inl
      · intro h2
        rcases h2 with h2 | rfl
        · exact h2
        · exact hfl
  | false =>
    have hfk : f ∉ cache.map Prod.fst := (mapHas_eq_false_iff _ _).mp hh
    refine ⟨updateLRU_nodup hlnd f, ?_, ?_⟩
    · rw [mapSet_keys_of_not_has v hh, List.nodup_append]
      exact ⟨hknd, List.nodup_singleton f, by
        intro a ha hmem2
        simp only [List.mem_singleton] at hmem2
        subst hmem2
        exact hfk ha⟩
    · intro k
      rw [mapSet_keys_of_not_has v hh, List.mem_append, List.mem_singleton,
        updateLRU_mem hlnd, hmem]

/-- The eviction stage preserves the invariant; under the invariant the
shifted LRU head is a tracked key, hence non-empty, so the guarded
`delete` really runs. -/
lemma evictIfNeeded_inv {δ : Type} (maxN : Nat) (cache : List (String × δ))
    (lru : List String) (f : String)
    (hinv : PartitionInv cache lru) (hne : ∀ k ∈ lru, k ≠ "") :
    PartitionInv (evictIfNeeded maxN cache lru f).1 (evictIfNeeded maxN cache lru f).2
    ∧ (∀ k ∈ (evictIfNeeded maxN cache lru f).2, k ≠ "") := by
  obtain ⟨hlnd, hknd, hmem⟩ := hinv
  rcases lru with _ | ⟨lruFile, rest⟩
  · unfold evictIfNeeded
    split_ifs <;> exact ⟨⟨hlnd, hknd, hmem⟩, hne⟩
  · have hlf : lruFile ≠ "" := hne lruFile (List.mem_cons_self _ _)
    unfold evictIfNeeded
    by_cases hcond : maxN ≤ cache.length ∧ mapHas cache f = false
    · rw [if_pos hcond]
      dsimp only
      rw [if_pos hlf]
      refine ⟨⟨hlnd.of_cons, ?_, ?_⟩, ?_⟩
      · rw [mapDelete_keys]; exact hknd.erase lruFile
      · intro k
        rw [mapDelete_keys, hknd.mem_erase_iff, hmem]
        simp only [List.mem_cons]
        constructor
        · rintro ⟨hne2, h2⟩
          rcases h2 with rfl | hm
          · exact absurd rfl hne2
          · exact hm
        · intro hm
          refine ⟨?_, Or.inr hm⟩
          rintro rfl
          exact (List.nodup_cons.mp hlnd).1 hm
      · exact fun k hk => hne k (List.mem_cons_of_mem _ hk)
    · rw [if_neg hcond]
      exact ⟨⟨hlnd, hknd, hmem⟩, hne⟩

/-- One partition-level save preserves the invariant and the
non-emptiness of all tracked keys (the saved key itself must be a
canonical, hence non-empty, file path). -/
lemma savePartition_inv {δ : Type} (maxN : Nat) (cache : List (String × δ))
    (lru : List String) (f : String) (v : δ)
    (hinv : PartitionInv cache lru) (hne : ∀ k ∈ lru, k ≠ "") (hf : f ≠ "") :
    PartitionInv (savePartition maxN cache lru f v).1
      (savePartition maxN cache lru f v).2
    ∧ (∀ k ∈ (savePartition maxN cache lru f v).2, k ≠ "") := by
  obtain ⟨hinv1, hne1⟩ := evictIfNeeded_inv maxN cache lru f hinv hne
  exact ⟨setAndPromote_inv hinv1 f v, updateLRU_ne_empty hne1 hf⟩

/-! ### Reachable states and the C5 invariant -/

/-- Full invariant carried through the induction: both partitions are in
sync with their LRU arrays, and every tracked key is a canonical
(non-empty) file path. -/
def CacheInv {δ : Type} (s : CacheManager δ) : Prop :=
  PartitionInv s.dirtyCache s.dirtyCacheLRU ∧
  PartitionInv s.decorationsCache s.decorationsCacheLRU ∧
  (∀ k ∈ s.dirtyCacheLRU, k ≠ "") ∧
  (∀ k ∈ s.decorationsCacheLRU, k ≠ "")

/-- States reachable from the fresh `CacheManager` through the public
operations.  Document identities are canonical file paths, hence
non-empty strings. -/
inductive Reachable {δ : Type} : CacheManager δ → Prop where
  | init : Reachable (CacheManager.new δ)
  | get (fileName : String) (isDirty : Bool) {s : CacheManager δ} :
      Reachable s → Reachable (s.getCachedDecorations fileName isDirty).1
  | save (fileName : String) (isDirty : Bool) (deco : δ) (hne : fileName ≠ "")
      {s : CacheManager δ} : Reachable s →
      Reachable (s.saveDecorations fileName isDirty deco)
  | clear {s : CacheManager δ} : Reachable s → Reachable s.clearCache

lemma getCachedDecorations_inv {δ : Type} (s : CacheManager δ)
    (fileName : String) (isDirty : Bool) (h : CacheInv s) :
    CacheInv (s.getCachedDecorations fileName isDirty).1 := by
  obtain ⟨h1, h2, h3, h4⟩ := h
  unfold CacheManager.getCachedDecorations
  by_cases hc : (!isDirty && mapHas s.decorationsCache fileName) = true
  · rw [if_pos hc]
    have hhas : mapHas s.decorationsCache fileName = true :=
      (Bool.and_eq_true _ _).mp hc |>.2
    have hfl : fileName ∈ s.decorationsCacheLRU :=
      (h2.2.2 fileName).mp ((mapHas_iff _ _).mp hhas)
    exact ⟨h1, promote_inv h2 hfl, h3,
      updateLRU_ne_empty h4 (h4 fileName hfl)⟩
  · rw [if_neg hc]
    by_cases hd : mapHas s.dirtyCache fileName = true
    · rw [if_pos hd]
      have hfl : fileName ∈ s.dirtyCacheLRU :=
        (h1.2.2 fileName).mp ((mapHas_iff _ _).mp hd)
      exact ⟨promote_inv h1 hfl, h2,
        updateLRU_ne_empty h3 (h3 fileName hfl), h4⟩
    · rw [if_neg hd]
      exact ⟨h1, h2, h3, h4⟩

lemma saveDecorations_inv {δ : Type} (s : CacheManager δ) (fileName : String)
    (isDirty : Bool) (deco : δ) (hf : fileName ≠ "") (h : CacheInv s) :
    CacheInv (s.saveDecorations fileName isDirty deco) := by
  obtain ⟨h1, h2, h3, h4⟩ := h
  unfold CacheManager.saveDecorations
  cases isDirty with
  | true =>
    obtain ⟨hi, hn⟩ := savePartition_inv s.maxCacheSize s.dirtyCache
      s.dirtyCacheLRU fileName deco h1 h3 hf
    exact ⟨hi, h2, hn, h4⟩
  | false =>
    obtain ⟨hi, hn⟩ := savePartition_inv s.maxCacheSize s.decorationsCache
      s.decorationsCacheLRU fileName deco h2 h4 hf
    exact ⟨h1, hi, h3, hn⟩

lemma cacheInv_of_reachable {δ : Type} {s : CacheManager δ}
    (h : Reachable s) : CacheInv s := by
  induction h with
  | init =>
    exact ⟨⟨List.nodup_nil, List.nodup_nil, by simp [CacheManager.new]⟩,
      ⟨List.nodup_nil, List.nodup_nil, by simp [CacheManager.new]⟩,
      by simp [CacheManager.new], by simp [CacheManager.new]⟩
  | get fileName isDirty _ ih => exact getCachedDecorations_inv _ fileName isDirty ih
  | save fileName isDirty deco hne _ ih => exact saveDecorations_inv _ fileName isDirty deco hne ih
  | clear _ ih =>
    exact ⟨⟨List.nodup_nil, List.nodup_nil, by simp [CacheManager.clearCache]⟩,
      ⟨List.nodup_nil, List.nodup_nil, by simp [CacheManager.clearCache]⟩,
      by simp [CacheManager.clearCache], by simp [CacheManager.clearCache]⟩

/-- C5: in every state reachable through `getCachedDecorations`,
`saveDecorations` and `clearCache` (with documents identified by their
canonical, non-empty, file paths), each partition's key set equals the
entry set of that partition's LRU order array, every key appearing
exactly once in the array. -/
theorem cacheManager_partition_lru_sync {δ : Type} {s : CacheManager δ}
    (h : Reachable s) :
    PartitionInv s.dirtyCache s.dirtyCacheLRU ∧
    PartitionInv s.decorationsCache s.decorationsCacheLRU := by
  obtain ⟨h1, h2, _, _⟩ := cacheInv_of_reachable h
  exact ⟨h1, h2⟩

/-- Witness for `cacheManager_partition_lru_sync`: a concrete reachable
state after one save and one promoting lookup. -/
theorem cacheManager_partition_lru_sync_witness :
    Reachable ((((CacheManager.new Nat).saveDecorations "a" false 0
        ).getCachedDecorations "a" false).1)
    ∧ (PartitionInv ((((CacheManager.new Nat).saveDecorations "a" false 0
          ).getCachedDecorations "a" false).1).dirtyCache
        ((((CacheManager.new Nat).saveDecorations "a" false 0
          ).getCachedDecorations "a" false).1).dirtyCacheLRU
      ∧ PartitionInv ((((CacheManager.new Nat).saveDecorations "a" false 0
          ).getCachedDecorations "a" false).1).decorationsCache
        ((((CacheManager.new Nat).saveDecorations "a" false 0
          ).getCachedDecorations "a" false).1).decorationsCacheLRU) :=
  ⟨Reachable.get "a" false (Reachable.save "a" false 0 (by decide) Reachable.init),
    cacheManager_partition_lru_sync
      (Reachable.get "a" false (Reachable.save "a" false 0 (by decide) Reachable.init))⟩

/-! ## The colorize cache-miss path (`extension.ts`, `colorize`) -/

/-- Writing a key always leaves it present in the map. -/
lemma mapHas_mapSet_self {δ : Type} (m : List (String × δ)) (f : String) (v : δ) :
    mapHas (mapSet m f v) f = true := by
  rw [mapHas_iff]
  cases hh : mapHas m f
  · rw [mapSet_keys_of_not_has v hh]; simp
  · rw [mapSet_keys_of_has v hh]; exact (mapHas_iff _ _).mp hh

/-- The cache-miss branch of `colorize`:

```
try {
  await initDecorations(extension);
} finally {
  if (extension.editor) {
    CacheManager.saveDecorations(extension.editor.document, extension.deco);
  }
}
```

`initOutcome` is the outcome of `await initDecorations(extension)` and
`decoAfter` the contents of `extension.deco` when control reaches the
`finally` block (on a throw, whatever partial map had been built).
`extension.editor` was assigned the colorized editor just before the
`try`, so the guard holds and the `finally` block saves in both the
success and the failure case. -/
def colorizeMissBranch {δ : Type} (cache : CacheManager δ) (fileName : String)
    (isDirty : Bool) (decoAfter : δ) (initOutcome : Except Unit Unit) :
    CacheManager δ × Except Unit Unit :=
  (cache.saveDecorations fileName isDirty decoAfter, initOutcome)

/-- C3 counterexample: starting from the empty cache, colorizing a
non-dirty document `"a"` whose `initDecorations` fails still writes an
entry for `"a"` into the saved partition — the cache is not left
unchanged. -/
theorem colorize_failure_cache_untouched_false :
    mapHas ((colorizeMissBranch (CacheManager.new Nat) "a" false 0
        (Except.error ())).1).decorationsCache "a" = true
    ∧ (colorizeMissBranch (CacheManager.new Nat) "a" false 0
        (Except.error ())).1 ≠ CacheManager.new Nat := by
  refine ⟨by decide, by decide⟩

/-- C3 amended: when `initDecorations` throws, the `finally` block still
saves `extension.deco` for the document: afterwards the partition
selected by the document's dirty flag always contains an entry for the
document. -/
theorem colorize_failure_still_saves {δ : Type} (cache : CacheManager δ)
    (fileName : String) (isDirty : Bool) (deco : δ) (err : Unit) :
    mapHas
      (cond isDirty
        ((colorizeMissBranch cache fileName isDirty deco (Except.error err)).1).dirtyCache
        ((colorizeMissBranch cache fileName isDirty deco (Except.error err)).1).decorationsCache)
      fileName = true := by
  cases isDirty <;>
    simp [colorizeMissBranch, CacheManager.saveDecorations, savePartition,
      mapHas_mapSet_self]

/-! ### LRU eviction order (C4) -/

/-- Saving a fresh key into an aligned partition (map keys equal to the
LRU array, all keys canonical): the partition stays aligned and the LRU
becomes the original keys plus the new one, truncated on the left to the
capacity. -/
lemma savePartition_aligned {δ : Type} (maxN : Nat) (hN : 0 < maxN)
    (cache : List (String × δ)) (lru : List String) (f : String) (v : δ)
    (halign : cache.map Prod.fst = lru)
    (hnotin : f ∉ lru) (hf : f ≠ "") (hne : ∀ k ∈ lru, k ≠ "")
    (hlen : lru.length ≤ maxN) :
    (savePartition maxN cache lru f v).1.map Prod.fst
        = (savePartition maxN cache lru f v).2
    ∧ (savePartition maxN cache lru f v).2
        = (lru ++ [f]).drop (lru.length + 1 - maxN)
    ∧ (savePartition maxN cache lru f v).2.length ≤ maxN
    ∧ (∀ k ∈ (savePartition maxN cache lru f v).2, k ≠ "") := by
  have hcachelen : cache.length = lru.length := by
    rw [← halign, List.length_map]
  have hhasf : mapHas cache f = false := by
    rw [mapHas_eq_false_iff, halign]; exact hnotin
  simp only [savePartition, evictIfNeeded]
  by_cases hfull : maxN ≤ cache.length
  · have hlenN : lru.length = maxN := le_antisymm hlen (hcachelen ▸ hfull)
    rw [if_pos ⟨hfull, hhasf⟩]
    cases lru with
    | nil => simp at hlenN; omega
    | cons lruFile rest =>
      have hlf : lruFile ≠ "" := hne lruFile (List.mem_cons_self _ _)
      dsimp only
      rw [if_pos hlf]
      have hkeys1 : (mapDelete cache lruFile).map Prod.fst = rest := by
        rw [mapDelete_keys, halign, List.erase_cons_head]
      have hfrest : f ∉ rest := fun hmem => hnotin (List.mem_cons_of_mem _ hmem)
      have hhasf1 : mapHas (mapDelete cache lruFile) f = false := by
        rw [mapHas_eq_false_iff, hkeys1]; exact hfrest
      have hupd : updateLRU rest f = rest ++ [f] := by
        rw [updateLRU, List.erase_of_not_mem hfrest]
      refine ⟨?_, ?_, ?_, ?_⟩
      · rw [mapSet_keys_of_not_has v hhasf1, hkeys1, hupd]
      · rw [hupd]
        have : (lruFile :: rest).length + 1 - maxN = 1 := by
          simp only [List.length_cons] at hlenN ⊢; omega
        rw [this]
        simp
      · rw [hupd]
        simp only [List.length_append, List.length_cons, List.length_nil]
          at hlenN ⊢
        omega
      · rw [hupd]
        intro k hk
        rcases List.mem_append.mp hk with h | h
        · exact hne k (List.mem_cons_of_mem _ h)
        · simp only [List.mem_singleton] at h; subst h; exact hf
  · rw [if_neg (fun hc => hfull hc.1)]
    have hupd : updateLRU lru f = lru ++ [f] := by
      rw [updateLRU, List.erase_of_not_mem hnotin]
    have hdrop : lru.length + 1 - maxN = 0 := by omega
    refine ⟨?_, ?_, ?_, ?_⟩
    · rw [mapSet_keys_of_not_has v hhasf, halign, hupd]
    · rw [hupd, hdrop, List.drop_zero]
    · rw [hupd]
      simp only [List.length_append, List.length_singleton]
      omega
    · rw [hupd]
      intro k hk
      rcases List.mem_append.mp hk with h | h
      · exact hne k h
      · simp only [List.mem_singleton] at h; subst h; exact hf

/-- Insert a batch of (fileName, decorations) pairs as non-dirty saves. -/
def saveAll {δ : Type} (s : CacheManager δ) (ks : List (String × δ)) :
    CacheManager δ :=
  ks.foldl (fun s kv => s.saveDecorations kv.1 false kv.2) s

/-- Folding fresh, distinct, canonical keys into the saved partition:
the partition stays aligned with its LRU array, which ends up holding
the suffix of the insertion sequence that fits the capacity. -/
lemma saveAll_aligned {δ : Type} (maxN : Nat) (hN : 0 < maxN) :
    ∀ (ks : List (String × δ)) (s : CacheManager δ),
      s.maxCacheSize = maxN →
      s.decorationsCache.map Prod.fst = s.decorationsCacheLRU →
      (∀ f ∈ ks.map Prod.fst, f ∉ s.decorationsCacheLRU ∧ f ≠ "") →
      (ks.map Prod.fst).Nodup →
      (∀ k ∈ s.decorationsCacheLRU, k ≠ "") →
      s.decorationsCacheLRU.length ≤ maxN →
      (saveAll s ks).decorationsCache.map Prod.fst
          = (saveAll s ks).decorationsCacheLRU
      ∧ (saveAll s ks).decorationsCacheLRU
          = (s.decorationsCacheLRU ++ ks.map Prod.fst).drop
              (s.decorationsCacheLRU.length + ks.length - maxN)
  | [], s, hmax, halign, hfresh, hnodup, hne, hlen => by
    refine ⟨halign, ?_⟩
    have h0 : s.decorationsCacheLRU.length - maxN = 0 := by omega
    simp [saveAll, h0]
  | (f, v) :: rest, s, hmax, halign, hfresh, hnodup, hne, hlen => by
    have hf := hfresh f (by simp)
    obtain ⟨hsp1, hsp2, hsp3, hsp4⟩ :=
      savePartition_aligned maxN hN s.decorationsCache s.decorationsCacheLRU
        f v halign hf.1 hf.2 hne hlen
    set s1 := s.saveDecorations f false v with hs1
    have hs1cache : s1.decorationsCache
        = (savePartition maxN s.decorationsCache s.decorationsCacheLRU f v).1 := by
      rw [hs1]
      simp [CacheManager.saveDecorations, hmax]
    have hs1lru : s1.decorationsCacheLRU
        = (savePartition maxN s.decorationsCache s.decorationsCacheLRU f v).2 := by
      rw [hs1]
      simp [CacheManager.saveDecorations, hmax]
    have hs1max : s1.maxCacheSize = maxN := by
      rw [hs1]
      simp [CacheManager.saveDecorations, hmax]
    have hlru1 : s1.decorationsCacheLRU
        = (s.decorationsCacheLRU ++ [f]).drop (s.decorationsCacheLRU.length + 1 - maxN) := by
      rw [hs1lru, hsp2]
    have hsub1 : ∀ k ∈ s1.decorationsCacheLRU, k ∈ s.decorationsCacheLRU ∨ k = f := by
      intro k hk
      rw [hlru1] at hk
      have := List.mem_of_mem_drop hk
      rcases List.mem_append.mp this with h | h
      · exact Or.inl h
      · simp only [List.mem_singleton] at h; exact Or.inr h
    have hfresh1 : ∀ g ∈ rest.map Prod.fst, g ∉ s1.decorationsCacheLRU ∧ g ≠ "" := by
      intro g hg
      have hgf := hfresh g (by simp [hg])
      refine ⟨?_, hgf.2⟩
      intro hmem
      rcases hsub1 g hmem with h | h
      · exact hgf.1 h
      · subst h
        exact (List.nodup_cons.mp (by simpa using hnodup)).1 hg
    have hnodup1 : (rest.map Prod.fst).Nodup :=
      (List.nodup_cons.mp (by simpa using hnodup)).2
    have hne1 : ∀ k ∈ s1.decorationsCacheLRU, k ≠ "" := by
      rw [hs1lru]; exact hsp4
    have hlen1 : s1.decorationsCacheLRU.length ≤ maxN := by
      rw [hs1lru]; exact hsp3
    have halign1 : s1.decorationsCache.map Prod.fst = s1.decorationsCacheLRU := by
      rw [hs1cache, hs1lru]; exact hsp1
    obtain ⟨ih1, ih2⟩ := saveAll_aligned maxN hN rest s1 hs1max halign1 hfresh1
      hnodup1 hne1 hlen1
    have hsaveAll : saveAll s ((f, v) :: rest) = saveAll s1 rest := rfl
    refine ⟨hsaveAll ▸ ih1, ?_⟩
    rw [hsaveAll, ih2, hlru1]
    rw [← List.drop_append_of_le_length
      (by simp only [List.length_append, List.length_singleton]; omega :
        s.decorationsCacheLRU.length + 1 - maxN ≤ (s.decorationsCacheLRU ++ [f]).length)]
    rw [List.drop_drop]
    have hlist : s.decorationsCacheLRU ++ [f] ++ rest.map Prod.fst
        = s.decorationsCacheLRU ++ ((f, v) :: rest).map Prod.fst := by
      simp
    rw [hlist]
    congr 1
    simp only [List.length_drop, List.length_append, List.length_cons,
      List.length_nil]
    omega

/-- After a promoting lookup of `f` in the saved partition, a subsequent
save cannot evict `f`: the lookup moved `f` to the most-recently-used end
of the LRU array, so the shifted head is some other key. -/
lemma get_promotes_then_survives {δ : Type} (s : CacheManager δ)
    (f g : String) (v : δ)
    (hinv : PartitionInv s.decorationsCache s.decorationsCacheLRU)
    (hne : ∀ k ∈ s.decorationsCacheLRU, k ≠ "")
    (hf : f ∈ s.decorationsCacheLRU)
    (hlen2 : 2 ≤ s.decorationsCacheLRU.length) :
    mapHas ((s.getCachedDecorations f false).1.saveDecorations g false v
      ).decorationsCache f = true := by
  obtain ⟨hlnd, hknd, hmem⟩ := hinv
  have hhas : mapHas s.decorationsCache f = true :=
    (mapHas_iff _ _).mpr ((hmem f).mpr hf)
  have hget : (s.getCachedDecorations f false).1
      = { s with decorationsCacheLRU := updateLRU s.decorationsCacheLRU f } := by
    unfold CacheManager.getCachedDecorations
    rw [if_pos (by simp [hhas])]
  rw [hget]
  simp only [CacheManager.saveDecorations]
  rw [if_neg Bool.false_ne_true]
  simp only [savePartition]
  have hfkeys : f ∈ s.decorationsCache.map Prod.fst := (hmem f).mpr hf
  have hsurvive : f ∈ (evictIfNeeded s.maxCacheSize s.decorationsCache
      (updateLRU s.decorationsCacheLRU f) g).1.map Prod.fst := by
    unfold evictIfNeeded
    by_cases hcond : s.maxCacheSize ≤ s.decorationsCache.length
        ∧ mapHas s.decorationsCache g = false
    · rw [if_pos hcond]
      cases hel : s.decorationsCacheLRU.erase f with
      | nil =>
        exfalso
        have := List.length_erase_of_mem hf
        rw [hel] at this
        simp at this
        omega
      | cons h1 t1 =>
        have hlru2 : updateLRU s.decorationsCacheLRU f = h1 :: (t1 ++ [f]) := by
          rw [updateLRU, hel, List.cons_append]
        rw [hlru2]
        dsimp only
        have hh1 : h1 ∈ s.decorationsCacheLRU.erase f := by
          rw [hel]; exact List.mem_cons_self _ _
        have hh1f : h1 ≠ f := (hlnd.mem_erase_iff.mp hh1).1
        have hh1mem : h1 ∈ s.decorationsCacheLRU := (hlnd.mem_erase_iff.mp hh1).2
        rw [if_pos (hne h1 hh1mem)]
        rw [mapDelete_keys, hknd.mem_erase_iff]
        exact ⟨fun he => hh1f he.symm, hfkeys⟩
    · rw [if_neg hcond]
      exact hfkeys
  exact (mapHas_iff _ _).mpr (mem_keys_mapSet v hsurvive)

/-- C4: filling the saved partition of capacity `N` from empty with
distinct canonical keys and no intervening lookups leaves exactly the
least-recently-inserted overflow absent and the last `N` keys present;
and a lookup through `getCachedDecorations` promotes a key so that it is
not the one evicted at the next capacity overflow (the promoted key
survives the following save). -/
theorem cacheManager_lru_eviction_and_promotion {δ : Type}
    (N : Nat) (hN : 0 < N) (ks : List (String × δ))
    (hnodup : (ks.map Prod.fst).Nodup)
    (hnonempty : ∀ f ∈ ks.map Prod.fst, f ≠ "")
    (hlen : N ≤ ks.length) :
    (∀ f ∈ (ks.map Prod.fst).take (ks.length - N),
        mapHas (saveAll { CacheManager.new δ with maxCacheSize := N } ks
          ).decorationsCache f = false)
    ∧ (∀ f ∈ (ks.map Prod.fst).drop (ks.length - N),
        mapHas (saveAll { CacheManager.new δ with maxCacheSize := N } ks
          ).decorationsCache f = true)
    ∧ (∀ (s : CacheManager δ) (f g : String) (v : δ),
        PartitionInv s.decorationsCache s.decorationsCacheLRU →
        (∀ k ∈ s.decorationsCacheLRU, k ≠ "") →
        f ∈ s.decorationsCacheLRU →
        2 ≤ s.decorationsCacheLRU.length →
        mapHas ((s.getCachedDecorations f false).1.saveDecorations g false v
          ).decorationsCache f = true) := by
  have hstart := saveAll_aligned N hN ks
    { CacheManager.new δ with maxCacheSize := N } rfl rfl
    (fun f hf => ⟨by simp [CacheManager.new], hnonempty f hf⟩) hnodup
    (by simp [CacheManager.new]) (by simp [CacheManager.new])
  obtain ⟨halign, hlru⟩ := hstart
  have hlru' : (saveAll { CacheManager.new δ with maxCacheSize := N } ks
      ).decorationsCacheLRU = (ks.map Prod.fst).drop (ks.length - N) := by
    rw [hlru]
    simp [CacheManager.new]
  have hdisj : List.Disjoint ((ks.map Prod.fst).take (ks.length - N))
      ((ks.map Prod.fst).drop (ks.length - N)) := by
    have h2 := hnodup
    rw [← List.take_append_drop (ks.length - N) (ks.map Prod.fst)] at h2
    exact (List.nodup_append.mp h2).2.2
  refine ⟨?_, ?_, ?_⟩
  · intro f hf
    rw [mapHas_eq_false_iff, halign, hlru']
    exact fun hmem => hdisj hf hmem
  · intro f hf
    rw [mapHas_iff, halign, hlru']
    exact hf
  · intro s f g v hinv hne hf hlen2
    exact get_promotes_then_survives s f g v hinv hne hf hlen2

/-- Witness for `cacheManager_lru_eviction_and_promotion` at capacity 2
with insertions a, b, c (so exactly a is evicted). -/
theorem cacheManager_lru_eviction_and_promotion_witness :
    (0 < 2
      ∧ (([("a", 0), ("b", 1), ("c", 2)] : List (String × Nat)).map
          Prod.fst).Nodup
      ∧ (∀ f ∈ ([("a", 0), ("b", 1), ("c", 2)] : List (String × Nat)).map
          Prod.fst, f ≠ "")
      ∧ 2 ≤ ([("a", 0), ("b", 1), ("c", 2)] : List (String × Nat)).length)
    ∧ ((∀ f ∈ (([("a", 0), ("b", 1), ("c", 2)] : List (String × Nat)).map
          Prod.fst).take (([("a", 0), ("b", 1), ("c", 2)] :
            List (String × Nat)).length - 2),
        mapHas (saveAll { CacheManager.new Nat with maxCacheSize := 2 }
          [("a", 0), ("b", 1), ("c", 2)]).decorationsCache f = false)
      ∧ (∀ f ∈ (([("a", 0), ("b", 1), ("c", 2)] : List (String × Nat)).map
          Prod.fst).drop (([("a", 0), ("b", 1), ("c", 2)] :
            List (String × Nat)).length - 2),
        mapHas (saveAll { CacheManager.new Nat with maxCacheSize := 2 }
          [("a", 0), ("b", 1), ("c", 2)]).decorationsCache f = true)
      ∧ (∀ (s : CacheManager Nat) (f g : String) (v : Nat),
          PartitionInv s.decorationsCache s.decorationsCacheLRU →
          (∀ k ∈ s.decorationsCacheLRU, k ≠ "") →
          f ∈ s.decorationsCacheLRU →
          2 ≤ s.decorationsCacheLRU.length →
          mapHas ((s.getCachedDecorations f false).1.saveDecorations g false v
            ).decorationsCache f = true)) :=
  ⟨⟨by decide, by decide, by decide, by decide⟩,
    cacheManager_lru_eviction_and_promotion 2 (by decide)
      [("a", 0), ("b", 1), ("c", 2)] (by decide) (by decide) (by decide)⟩

/-! ## Duplicate decoration removal (`extension.ts`,
`removeDuplicateDecorations`) -/

/-- Model of an `IDecoration` at the point `deco.generateRange(line)` has
run: `currentRange` is the resolved display range on its line (abstracted
as a `Nat`; `Range.isEqual` becomes equality), `disposed` the disposal
flag, and `id` an identity tag distinguishing the underlying objects. -/
structure Decoration where
  id : Nat
  currentRange : Nat
  disposed : Bool
deriving DecidableEq

/-- One iteration of the `forEach` in `removeDuplicateDecorations`:
`findIndex` locates an already-kept decoration whose resolved range
equals the current one; if found it is disposed and filtered out of the
kept list; the current decoration is pushed.  The second component
accumulates the decorations disposed so far. -/
def dedupStep (st : List Decoration × List Decoration) (deco : Decoration) :
    List Decoration × List Decoration :=
  match st.1.find? (fun d => d.currentRange == deco.currentRange) with
  | some hit =>
      (st.1.eraseP (fun d => d.currentRange == deco.currentRange) ++ [deco],
        st.2 ++ [{ hit with disposed := true }])
  | none => (st.1 ++ [deco], st.2)

/-- Deduplicate one line's decoration list, also returning the
decorations that were disposed along the way. -/
def removeDupLine (decos : List Decoration) :
    List Decoration × List Decoration :=
  decos.foldl dedupStep ([], [])

/-- `removeDuplicateDecorations(context)`: rebuild `context.deco` with
each line's decoration list deduplicated. -/
def removeDuplicateDecorations (deco : List (Nat × List Decoration)) :
    List (Nat × List Decoration) :=
  deco.map (fun e => (e.1, (removeDupLine e.2).1))

/-- The kept list produced by one step, uniformly over both branches:
erase the first same-range entry (a no-op when there is none) and append
the new decoration. -/
lemma dedupStep_fst (st : List Decoration × List Decoration) (deco : Decoration) :
    (dedupStep st deco).1
      = st.1.eraseP (fun d => d.currentRange == deco.currentRange) ++ [deco] := by
  unfold dedupStep
  cases hf : st.1.find? (fun d => d.currentRange == deco.currentRange) with
  | some hit => rfl
  | none =>
    have : st.1.eraseP (fun d => d.currentRange == deco.currentRange) = st.1 := by
      rw [List.eraseP_eq_self_iff]
      intro a ha hpa
      exact List.find?_eq_none.mp hf a ha hpa
    rw [this]

/-- Filtering after `eraseP` with the same predicate drops the first
match. -/
lemma filter_eraseP_self (p : Decoration → Bool) :
    ∀ l : List Decoration, (l.eraseP p).filter p = (l.filter p).drop 1 := by
  intro l
  induction l with
  | nil => rfl
  | cons e es ih =>
    by_cases he : p e = true
    · simp [List.eraseP_cons, he, List.filter_cons]
    · simp [List.eraseP_cons, he, List.filter_cons, ih]

/-- Filtering is unaffected by `eraseP` with an incompatible predicate. -/
lemma filter_eraseP_of_neg {p q : Decoration → Bool}
    (hpq : ∀ x, p x = true → q x = false) :
    ∀ l : List Decoration, (l.eraseP p).filter q = l.filter q := by
  intro l
  induction l with
  | nil => rfl
  | cons e es ih =>
    by_cases he : p e = true
    · simp [List.eraseP_cons, he, List.filter_cons, hpq e he]
    · simp only [List.eraseP_cons, he, cond_false, List.filter_cons]
      cases hq : q e <;> simp [hq, ih]

/-- The disposal accumulator produced by one step: unchanged, or extended
with the found duplicate, its `disposed` flag set by `dispose()`. -/
lemma dedupStep_snd (st : List Decoration × List Decoration) (deco : Decoration) :
    (dedupStep st deco).2
      = st.2 ++ ((st.1.find? (fun d => d.currentRange == deco.currentRange)).map
          (fun hit => { hit with disposed := true })).toList := by
  unfold dedupStep
  cases hf : st.1.find? (fun d => d.currentRange == deco.currentRange) with
  | some hit => simp
  | none => simp

/-- Each step keeps the total number of decorations (kept plus disposed). -/
lemma dedupStep_length (st : List Decoration × List Decoration) (deco : Decoration) :
    (dedupStep st deco).1.length + (dedupStep st deco).2.length
      = st.1.length + st.2.length + 1 := by
  unfold dedupStep
  cases hf : st.1.find? (fun d => d.currentRange == deco.currentRange) with
  | none =>
    simp only [List.length_append, List.length_cons, List.length_nil]
    omega
  | some hit =>
    have hmem := List.mem_of_find?_eq_some hf
    have hp := List.find?_some hf
    have herase : (st.1.eraseP
          (fun d => d.currentRange == deco.currentRange)).length + 1
        = st.1.length := List.length_eraseP_add_one hmem hp
    simp only [List.length_append, List.length_cons, List.length_nil]
    omega

/-- Core loop invariant of the deduplication fold: provided the kept
accumulator holds at most one decoration per resolved range, the final
kept list holds, for every range, exactly the last decoration of
(accumulator ++ input) with that range. -/
lemma dedupFold_filter :
    ∀ (decos : List Decoration) (acc disp : List Decoration),
      (∀ r, ((acc.filter (fun d => d.currentRange == r)).length ≤ 1)) →
      ∀ r, ((decos.foldl dedupStep (acc, disp)).1.filter
          (fun d => d.currentRange == r))
        = (((acc ++ decos).filter (fun d => d.currentRange == r)).getLast?).toList
  | [], acc, disp, hinv, r => by
    simp only [List.foldl_nil, List.append_nil]
    have hlen := hinv r
    cases hfl : acc.filter (fun d => d.currentRange == r) with
    | nil => rfl
    | cons x xs =>
      rw [hfl] at hlen
      simp only [List.length_cons] at hlen
      have hxs : xs = [] := List.length_eq_zero.mp (by omega)
      subst hxs
      rfl
  | deco :: rest, acc, disp, hinv, r => by
    rw [List.foldl_cons]
    have hstep : dedupStep (acc, disp) deco
        = (acc.eraseP (fun d => d.currentRange == deco.currentRange) ++ [deco],
            (dedupStep (acc, disp) deco).2) := by
      rw [← dedupStep_fst (acc, disp) deco]
    rw [hstep]
    have hinv' : ∀ r', (((acc.eraseP
          (fun d => d.currentRange == deco.currentRange) ++ [deco]).filter
            (fun d => d.currentRange == r')).length ≤ 1) := by
      intro r'
      rw [List.filter_append]
      by_cases hr' : deco.currentRange = r'
      · have hself : (fun d : Decoration => d.currentRange == deco.currentRange)
            = (fun d : Decoration => d.currentRange == r') := by rw [hr']
        rw [hself, filter_eraseP_self]
        have hlen := hinv r'
        have hd : (deco.currentRange == r') = true := by simp [hr']
        have hsing : ([deco] : List Decoration).filter
            (fun d => d.currentRange == r') = [deco] := by simp [hd]
        rw [hsing]
        simp only [List.length_append, List.length_drop, List.length_cons,
          List.length_nil]
        omega
      · have hne : ∀ x : Decoration,
            (x.currentRange == deco.currentRange) = true →
            (x.currentRange == r') = false := by
          intro x hx
          have hx' : x.currentRange = deco.currentRange := by simpa using hx
          simp [hx', hr']
        rw [filter_eraseP_of_neg hne]
        have hd : (deco.currentRange == r') = false := by simp [hr']
        have hsing : ([deco] : List Decoration).filter
            (fun d => d.currentRange == r') = [] := by simp [hd]
        rw [hsing]
        simp only [List.length_append, List.length_nil]
        have hlen := hinv r'
        omega
    have ih := dedupFold_filter rest
      (acc.eraseP (fun d => d.currentRange == deco.currentRange) ++ [deco])
      (dedupStep (acc, disp) deco).2 hinv' r
    rw [ih]
    congr 1
    rw [List.append_assoc, List.singleton_append]
    rw [List.filter_append, List.filter_append]
    by_cases hr : deco.currentRange = r
    · have hd : (deco.currentRange == r) = true := by simp [hr]
      have hne2 : (deco :: rest).filter (fun d => d.currentRange == r) ≠ [] := by
        simp [List.filter_cons, hd]
      rw [List.getLast?_append_of_ne_nil _ hne2,
        List.getLast?_append_of_ne_nil _ hne2]
    · have hne : ∀ x : Decoration,
          (x.currentRange == deco.currentRange) = true →
          (x.currentRange == r) = false := by
        intro x hx
        have hx' : x.currentRange = deco.currentRange := by simpa using hx
        simp [hx', hr]
      rw [filter_eraseP_of_neg hne]

/-- Everything in the disposal accumulator carries a set `disposed` flag. -/
lemma dedupFold_disposed :
    ∀ (decos acc disp : List Decoration),
      (∀ d ∈ disp, d.disposed = true) →
      ∀ d ∈ (decos.foldl dedupStep (acc, disp)).2, d.disposed = true
  | [], acc, disp, h => by simpa using h
  | deco :: rest, acc, disp, h => by
    rw [List.foldl_cons]
    have hd : ∀ d ∈ (dedupStep (acc, disp) deco).2, d.disposed = true := by
      intro d hdm
      rw [dedupStep_snd] at hdm
      rcases List.mem_append.mp hdm with h1 | h1
      · exact h d h1
      · cases hf : (acc, disp).1.find?
            (fun d => d.currentRange == deco.currentRange) with
        | none => rw [hf] at h1; simp at h1
        | some hit =>
          rw [hf] at h1
          simp at h1
          subst h1
          rfl
    have hpair : dedupStep (acc, disp) deco
        = ((dedupStep (acc, disp) deco).1, (dedupStep (acc, disp) deco).2) := rfl
    rw [hpair]
    exact dedupFold_disposed rest _ _ hd

/-- The fold conserves the total number of decorations. -/
lemma dedupFold_length :
    ∀ (decos acc disp : List Decoration),
      (decos.foldl dedupStep (acc, disp)).1.length
        + (decos.foldl dedupStep (acc, disp)).2.length
      = acc.length + disp.length + decos.length
  | [], acc, disp => by simp
  | deco :: rest, acc, disp => by
    rw [List.foldl_cons]
    have h1 := dedupStep_length (acc, disp) deco
    have hpair : dedupStep (acc, disp) deco
        = ((dedupStep (acc, disp) deco).1, (dedupStep (acc, disp) deco).2) := rfl
    rw [hpair]
    have ih := dedupFold_length rest (dedupStep (acc, disp) deco).1
      (dedupStep (acc, disp) deco).2
    simp only [List.length_cons] at *
    omega

/-- C6: after `removeDuplicateDecorations`, every line's list keeps, for
each resolved display range, exactly the last decoration of the original
list with that range (so at most one decoration — in particular at most
one non-disposed one — per range remains, and merging two sets that both
cover a range leaves exactly one); every decoration removed along the way
was disposed (`dispose()` set its flag), each earlier duplicate being
disposed in favour of the later one; and no decoration is lost (kept plus
disposed account for the whole input). -/
theorem removeDuplicate_unique_range {dm : List (Nat × List Decoration)}
    {line : Nat} {l : List Decoration} (h : (line, l) ∈ dm) :
    (line, (removeDupLine l).1) ∈ removeDuplicateDecorations dm
    ∧ (∀ r, (removeDupLine l).1.filter (fun d => d.currentRange == r)
        = ((l.filter (fun d => d.currentRange == r)).getLast?).toList)
    ∧ (∀ r, ((removeDupLine l).1.filter
        (fun d => d.currentRange == r)).length ≤ 1)
    ∧ (∀ d ∈ (removeDupLine l).2, d.disposed = true)
    ∧ (removeDupLine l).1.length + (removeDupLine l).2.length = l.length := by
  have hfilter : ∀ r, (removeDupLine l).1.filter (fun d => d.currentRange == r)
      = ((l.filter (fun d => d.currentRange == r)).getLast?).toList := by
    intro r
    have hmain := dedupFold_filter l [] [] (by intro r'; simp) r
    simpa [removeDupLine] using hmain
  refine ⟨List.mem_map.mpr ⟨(line, l), h, rfl⟩, hfilter, ?_, ?_, ?_⟩
  · intro r
    rw [hfilter r]
    cases (l.filter (fun d => d.currentRange == r)).getLast? <;> simp
  · exact dedupFold_disposed l [] [] (by simp)
  · have hlen := dedupFold_length l [] []
    simpa [removeDupLine] using hlen

/-- Witness for `removeDuplicate_unique_range`: one line carrying two
live decorations that resolve to the same display range. -/
theorem removeDuplicate_unique_range_witness :
    ((0, [⟨0, 5, false⟩, ⟨1, 5, false⟩]) ∈
        ([(0, [⟨0, 5, false⟩, ⟨1, 5, false⟩])] : List (Nat × List Decoration)))
    ∧ ((0, (removeDupLine [⟨0, 5, false⟩, ⟨1, 5, false⟩]).1) ∈
          removeDuplicateDecorations
            ([(0, [⟨0, 5, false⟩, ⟨1, 5, false⟩])] : List (Nat × List Decoration))
      ∧ (∀ r, (removeDupLine
            ([⟨0, 5, false⟩, ⟨1, 5, false⟩] : List Decoration)).1.filter
              (fun d => d.currentRange == r)
          = ((([⟨0, 5, false⟩, ⟨1, 5, false⟩] : List Decoration).filter
              (fun d => d.currentRange == r)).getLast?).toList)
      ∧ (∀ r, ((removeDupLine
            ([⟨0, 5, false⟩, ⟨1, 5, false⟩] : List Decoration)).1.filter
              (fun d => d.currentRange == r)).length ≤ 1)
      ∧ (∀ d ∈ (removeDupLine
            ([⟨0, 5, false⟩, ⟨1, 5, false⟩] : List Decoration)).2,
          d.disposed = true)
      ∧ (removeDupLine ([⟨0, 5, false⟩, ⟨1, 5, false⟩] :
            List Decoration)).1.length
          + (removeDupLine ([⟨0, 5, false⟩, ⟨1, 5, false⟩] :
              List Decoration)).2.length
          = ([⟨0, 5, false⟩, ⟨1, 5, false⟩] : List Decoration).length) :=
  ⟨by decide, removeDuplicate_unique_range (by decide)⟩

/-! ## Language-server file extraction (`server/src/utils/index.ts` and
the `colorize_extract_variables` request handler) -/

/-- Abstract file system: per path, the size reported by `statSync`
(`none` when `statSync` throws, e.g. the file is missing or unreadable)
and the outcome of `readFileSync`, the returned text represented by its
newline decomposition `text.split(/\n/)`. -/
structure FileInfo where
  statSize : Option Nat
  content : Except String (List String)

/-- `DEFAULT_FILE_SIZE_LIMIT` (1 MiB). -/
def DEFAULT_FILE_SIZE_LIMIT : Nat := 1024 * 1024

/-- `MAX_FILES_PER_BATCH`. -/
def MAX_FILES_PER_BATCH : Nat := 100

/-- One `{ text, line }` record produced by `extractFileContent`. -/
structure DocumentLine where
  text : String
  line : Nat
deriving DecidableEq

/-- `isFileSizeWithinLimit`: `statSync(fileName).size <= sizeLimit`, and
`false` when `statSync` throws (the `catch` branch logs and returns
`false`). -/
def isFileSizeWithinLimit (fs : String → FileInfo) (fileName : String)
    (sizeLimit : Nat) : Bool :=
  match (fs fileName).statSize with
  | some size => decide (size ≤ sizeLimit)
  | none => false

/-- The message of the error thrown by `extractFileContent`. -/
def sizeLimitErrorMessage (sizeLimit : Nat) (fileName : String) : String :=
  "File size exceeds limit (" ++ toString sizeLimit ++ " bytes): " ++ fileName

/-- `extractFileContent`: throw the size-limit error unless the size
check passes, then read the file and turn its lines into numbered
`{ text, line }` records. -/
def extractFileContent (fs : String → FileInfo) (fileName : String)
    (sizeLimit : Nat) : Except String (List DocumentLine) :=
  if isFileSizeWithinLimit fs fileName sizeLimit = false then
    Except.error (sizeLimitErrorMessage sizeLimit fileName)
  else
    match (fs fileName).content with
    | Except.error e => Except.error e
    | Except.ok lines => Except.ok (lines.enum.map (fun p => ⟨p.2, p.1⟩))

/-- The handler's per-file error message for an oversized file. -/
def handlerSizeLimitMessage (fileSizeLimit : Nat) : String :=
  "File size exceeds limit (" ++ toString fileSizeLimit ++ " bytes)"

/-- The per-file loop body of the `colorize_extract_variables` handler:
an oversized file is reported in `errors` and skipped (`continue`); an
extraction failure is caught, logged and reported in `errors`; a
successful extraction is appended to `filesContent`.  In every case the
loop continues with the next file. -/
def processFile (fs : String → FileInfo) (fileSizeLimit : Nat)
    (st : List (String × List DocumentLine) × List (String × String))
    (fileName : String) :
    List (String × List DocumentLine) × List (String × String) :=
  if isFileSizeWithinLimit fs fileName fileSizeLimit = false then
    (st.1, st.2 ++ [(fileName, handlerSizeLimitMessage fileSizeLimit)])
  else
    match extractFileContent fs fileName fileSizeLimit with
    | Except.ok content => (st.1 ++ [(fileName, content)], st.2)
    | Except.error e => (st.1, st.2 ++ [(fileName, e)])

/-- Split the file list into batches of `MAX_FILES_PER_BATCH` (the
handler's outer loop strides by that amount over `files`). -/
def chunks : List String → List (List String)
  | [] => []
  | a :: rest =>
      (a :: rest).take MAX_FILES_PER_BATCH
        :: chunks ((a :: rest).drop MAX_FILES_PER_BATCH)
termination_by l => l.length
decreasing_by
  simp only [List.length_drop, List.length_cons, MAX_FILES_PER_BATCH]
  omega

/-- The batched `colorize_extract_variables` handler body over the
matched files: process the files batch by batch, collecting
`filesContent` and `errors`. -/
def processBatches (fs : String → FileInfo) (fileSizeLimit : Nat)
    (files : List String) :
    List (String × List DocumentLine) × List (String × String) :=
  (chunks files).foldl
    (fun st batch => batch.foldl (processFile fs fileSizeLimit) st) ([], [])

/-- The batching loop visits exactly the whole file list in order. -/
lemma chunks_foldl {β : Type} (f : β → String → β) :
    ∀ (n : Nat) (l : List String), l.length ≤ n → ∀ init : β,
      (chunks l).foldl (fun st batch => batch.foldl f st) init = l.foldl f init
  | _, [], _, init => by
    have h0 : chunks [] = [] := by unfold chunks; rfl
    rw [h0]
    rfl
  | 0, a :: rest, hlen, init => by simp at hlen
  | n + 1, a :: rest, hlen, init => by
    rw [chunks]
    rw [List.foldl_cons]
    have hdroplen : ((a :: rest).drop MAX_FILES_PER_BATCH).length ≤ n := by
      simp only [List.length_drop, List.length_cons] at hlen ⊢
      simp only [MAX_FILES_PER_BATCH]
      omega
    rw [chunks_foldl f n ((a :: rest).drop MAX_FILES_PER_BATCH) hdroplen]
    rw [← List.foldl_append]
    rw [List.take_append_drop]

/-- The handler is the plain fold of the per-file body over the files. -/
lemma processBatches_eq_foldl (fs : String → FileInfo) (fileSizeLimit : Nat)
    (files : List String) :
    processBatches fs fileSizeLimit files
      = files.foldl (processFile fs fileSizeLimit) ([], []) :=
  chunks_foldl (processFile fs fileSizeLimit) files.length files (le_refl _) ([], [])

/-- A boolean that is not `false` is `true`. -/
lemma bool_ne_false {b : Bool} (h : ¬b = false) : b = true := by
  cases b
  · exact absurd rfl h
  · rfl

/-- Membership in either result list survives later loop iterations. -/
lemma processFile_mono (fs : String → FileInfo) (L : Nat)
    (st : List (String × List DocumentLine) × List (String × String))
    (g : String) :
    (∀ e ∈ st.1, e ∈ (processFile fs L st g).1)
    ∧ (∀ e ∈ st.2, e ∈ (processFile fs L st g).2) := by
  unfold processFile
  by_cases hw : isFileSizeWithinLimit fs g L = false
  · rw [if_pos hw]
    exact ⟨fun e he => he, fun e he => List.mem_append_left _ he⟩
  · rw [if_neg hw]
    cases hx : extractFileContent fs g L with
    | ok content => exact ⟨fun e he => List.mem_append_left _ he, fun e he => he⟩
    | error msg => exact ⟨fun e he => he, fun e he => List.mem_append_left _ he⟩

lemma foldl_processFile_mono (fs : String → FileInfo) (L : Nat) :
    ∀ (files : List String)
      (st : List (String × List DocumentLine) × List (String × String)),
      (∀ e ∈ st.1, e ∈ (files.foldl (processFile fs L) st).1)
      ∧ (∀ e ∈ st.2, e ∈ (files.foldl (processFile fs L) st).2)
  | [], st => ⟨fun _ he => he, fun _ he => he⟩
  | g :: rest, st => by
    rw [List.foldl_cons]
    obtain ⟨m1, m2⟩ := processFile_mono fs L st g
    obtain ⟨f1, f2⟩ := foldl_processFile_mono fs L rest (processFile fs L st g)
    exact ⟨fun e he => f1 e (m1 e he), fun e he => f2 e (m2 e he)⟩

/-- An oversized (or stat-failing) file that occurs in the list is
reported in the errors with the handler's size-limit message. -/
lemma foldl_processFile_oversized (fs : String → FileInfo) (L : Nat) :
    ∀ (files : List String)
      (st : List (String × List DocumentLine) × List (String × String))
      (g : String), g ∈ files → isFileSizeWithinLimit fs g L = false →
      (g, handlerSizeLimitMessage L) ∈ (files.foldl (processFile fs L) st).2
  | [], st, g, hmem, _ => by simp at hmem
  | h :: rest, st, g, hmem, hw => by
    rw [List.foldl_cons]
    rcases List.mem_cons.mp hmem with rfl | hmem'
    · have hin : (g, handlerSizeLimitMessage L) ∈ (processFile fs L st g).2 := by
        unfold processFile
        rw [if_pos hw]
        exact List.mem_append_right _ (List.mem_singleton.mpr rfl)
      exact (foldl_processFile_mono fs L rest _).2 _ hin
    · exact foldl_processFile_oversized fs L rest _ g hmem' hw

/-- Everything in `filesContent` passed the size check. -/
lemma foldl_processFile_fc_shape (fs : String → FileInfo) (L : Nat) :
    ∀ (files : List String)
      (st : List (String × List DocumentLine) × List (String × String))
      (e : String × List DocumentLine),
      e ∈ (files.foldl (processFile fs L) st).1 →
      e ∈ st.1 ∨ isFileSizeWithinLimit fs e.1 L = true
  | [], st, e, he => Or.inl he
  | g :: rest, st, e, he => by
    rw [List.foldl_cons] at he
    rcases foldl_processFile_fc_shape fs L rest _ e he with h1 | h1
    · unfold processFile at h1
      by_cases hw : isFileSizeWithinLimit fs g L = false
      · rw [if_pos hw] at h1
        exact Or.inl h1
      · rw [if_neg hw] at h1
        cases hx : extractFileContent fs g L with
        | ok content =>
          rw [hx] at h1
          rcases List.mem_append.mp h1 with h2 | h2
          · exact Or.inl h2
          · right
            rw [List.mem_singleton.mp h2]
            exact bool_ne_false hw
        | error msg =>
          rw [hx] at h1
          exact Or.inl h1
    · exact Or.inr h1

/-- A successful extraction passed the size check. -/
lemma extract_ok_within {fs : String → FileInfo} {g : String} {L : Nat}
    {content : List DocumentLine}
    (h : extractFileContent fs g L = Except.ok content) :
    isFileSizeWithinLimit fs g L = true := by
  unfold extractFileContent at h
  by_cases hw : isFileSizeWithinLimit fs g L = false
  · rw [if_pos hw] at h
    simp at h
  · exact bool_ne_false hw

/-- A file whose extraction succeeds is returned in `filesContent`, no
matter which other files in the batch fail. -/
lemma foldl_processFile_ok_mem (fs : String → FileInfo) (L : Nat) :
    ∀ (files : List String)
      (st : List (String × List DocumentLine) × List (String × String))
      (g : String) (content : List DocumentLine), g ∈ files →
      extractFileContent fs g L = Except.ok content →
      (g, content) ∈ (files.foldl (processFile fs L) st).1
  | [], st, g, content, hmem, _ => by simp at hmem
  | h :: rest, st, g, content, hmem, hok => by
    rw [List.foldl_cons]
    rcases List.mem_cons.mp hmem with rfl | hmem'
    · have hw := extract_ok_within hok
      have hin : (g, content) ∈ (processFile fs L st g).1 := by
        unfold processFile
        rw [if_neg (by rw [hw]; simp), hok]
        exact List.mem_append_right _ (List.mem_singleton.mpr rfl)
      exact (foldl_processFile_mono fs L rest _).1 _ hin
    · exact foldl_processFile_ok_mem fs L rest _ g content hmem' hok

/-- Shape of every reported error: either the handler's size-limit
report for a file that failed the size check, or the caught extraction
error of a file that passed it. -/
lemma foldl_processFile_err_shape (fs : String → FileInfo) (L : Nat) :
    ∀ (files : List String)
      (st : List (String × List DocumentLine) × List (String × String))
      (g : String) (e : String),
      (g, e) ∈ (files.foldl (processFile fs L) st).2 →
      (g, e) ∈ st.2
      ∨ (isFileSizeWithinLimit fs g L = false ∧ e = handlerSizeLimitMessage L)
      ∨ (isFileSizeWithinLimit fs g L = true
          ∧ extractFileContent fs g L = Except.error e)
  | [], st, g, e, he => Or.inl he
  | h :: rest, st, g, e, he => by
    rw [List.foldl_cons] at he
    rcases foldl_processFile_err_shape fs L rest _ g e he with h1 | h1 | h1
    · unfold processFile at h1
      by_cases hw : isFileSizeWithinLimit fs h L = false
      · rw [if_pos hw] at h1
        rcases List.mem_append.mp h1 with h2 | h2
        · exact Or.inl h2
        · have h3 := List.mem_singleton.mp h2
          rw [Prod.mk.injEq] at h3
          right; left
          rw [← h3.1] at hw
          exact ⟨hw, h3.2⟩
      · rw [if_neg hw] at h1
        cases hx : extractFileContent fs h L with
        | ok content =>
          rw [hx] at h1
          exact Or.inl h1
        | error msg =>
          rw [hx] at h1
          rcases List.mem_append.mp h1 with h2 | h2
          · exact Or.inl h2
          · have h3 := List.mem_singleton.mp h2
            rw [Prod.mk.injEq] at h3
            right; right
            refine ⟨?_, ?_⟩
            · rw [h3.1]; exact bool_ne_false hw
            · rw [h3.1, h3.2]; exact hx
    · exact Or.inr (Or.inl h1)
    · exact Or.inr (Or.inr h1)

/-- C7: in the batched extraction handler, a file whose size exceeds the
configured ceiling is reported in the errors list with the size-limit
message, never appears in `filesContent`, and does not abort the batch:
every file whose extraction succeeds is still returned. -/
theorem handler_oversized_reported {fs : String → FileInfo}
    {files : List String} {fileSizeLimit : Nat} {f : String} {sz : Nat}
    (hmem : f ∈ files) (hstat : (fs f).statSize = some sz)
    (hover : fileSizeLimit < sz) :
    (f, handlerSizeLimitMessage fileSizeLimit)
        ∈ (processBatches fs fileSizeLimit files).2
    ∧ f ∉ (processBatches fs fileSizeLimit files).1.map Prod.fst
    ∧ (∀ g ∈ files, ∀ content,
        extractFileContent fs g fileSizeLimit = Except.ok content →
        (g, content) ∈ (processBatches fs fileSizeLimit files).1) := by
  have hw : isFileSizeWithinLimit fs f fileSizeLimit = false := by
    unfold isFileSizeWithinLimit
    rw [hstat]
    simp
    omega
  rw [processBatches_eq_foldl]
  refine ⟨?_, ?_, ?_⟩
  · exact foldl_processFile_oversized fs fileSizeLimit files ([], []) f hmem hw
  · intro hmemfc
    obtain ⟨e, hefc, hef⟩ := List.mem_map.mp hmemfc
    rcases foldl_processFile_fc_shape fs fileSizeLimit files ([], []) e hefc
        with h1 | h1
    · simp at h1
    · rw [hef] at h1
      rw [h1] at hw
      exact absurd hw (by simp)
  · intro g hg content hok
    exact foldl_processFile_ok_mem fs fileSizeLimit files ([], []) g content hg hok

/-- Concrete file system for the C7 witness: a 2 MiB file and a small
readable one. -/
def testFS : String → FileInfo := fun name =>
  if name = "big" then ⟨some 2097152, Except.ok [""]⟩
  else ⟨some 10, Except.ok ["line0", "line1"]⟩

/-- Witness for `handler_oversized_reported`: a 2 MiB file against the
1 MiB default ceiling, batched with a small file that succeeds. -/
theorem handler_oversized_reported_witness :
    ("big" ∈ ["big", "ok"] ∧ (testFS "big").statSize = some 2097152
      ∧ 1048576 < 2097152)
    ∧ (("big", handlerSizeLimitMessage 1048576)
          ∈ (processBatches testFS 1048576 ["big", "ok"]).2
      ∧ "big" ∉ (processBatches testFS 1048576 ["big", "ok"]).1.map Prod.fst
      ∧ (∀ g ∈ ["big", "ok"], ∀ content,
          extractFileContent testFS g 1048576 = Except.ok content →
          (g, content) ∈ (processBatches testFS 1048576 ["big", "ok"]).1)) :=
  ⟨⟨by decide, by decide, by decide⟩,
    @handler_oversized_reported testFS ["big", "ok"] 1048576 "big" 2097152
      (by decide) (by decide) (by decide)⟩

/-- C10: when `statSync` throws for a path (missing or unreadable file),
`isFileSizeWithinLimit` returns `false`; `extractFileContent` therefore
throws the size-limit error for that path; and the batched handler
reports the file in the errors list with the handler's
"File size exceeds limit" message — every error recorded for such a file
is that message, never a distinct read-error kind. -/
theorem statFailure_reported_as_size_limit {fs : String → FileInfo}
    {fileSizeLimit : Nat} {f : String}
    (hstat : (fs f).statSize = none) :
    isFileSizeWithinLimit fs f fileSizeLimit = false
    ∧ extractFileContent fs f fileSizeLimit
        = Except.error (sizeLimitErrorMessage fileSizeLimit f)
    ∧ (∀ files : List String, f ∈ files →
        (f, handlerSizeLimitMessage fileSizeLimit)
          ∈ (processBatches fs fileSizeLimit files).2)
    ∧ (∀ (files : List String) (e : String),
        (f, e) ∈ (processBatches fs fileSizeLimit files).2 →
        e = handlerSizeLimitMessage fileSizeLimit) := by
  have hw : isFileSizeWithinLimit fs f fileSizeLimit = false := by
    unfold isFileSizeWithinLimit
    rw [hstat]
  have hx : extractFileContent fs f fileSizeLimit
      = Except.error (sizeLimitErrorMessage fileSizeLimit f) := by
    unfold extractFileContent
    rw [if_pos hw]
  refine ⟨hw, hx, ?_, ?_⟩
  · intro files hmem
    rw [processBatches_eq_foldl]
    exact foldl_processFile_oversized fs fileSizeLimit files ([], []) f hmem hw
  · intro files e hmem
    rw [processBatches_eq_foldl] at hmem
    rcases foldl_processFile_err_shape fs fileSizeLimit files ([], []) f e hmem
        with h1 | h1 | h1
    · simp at h1
    · exact h1.2
    · rw [h1.1] at hw
      exact absurd hw (by simp)

/-- Concrete file system for the C10 witness: `statSync` always throws. -/
def missingFS : String → FileInfo := fun _ => ⟨none, Except.error "ENOENT"⟩

/-- Witness for `statFailure_reported_as_size_limit` on a missing file. -/
theorem statFailure_reported_as_size_limit_witness :
    (missingFS "gone").statSize = none
    ∧ (isFileSizeWithinLimit missingFS "gone" 1048576 = false
      ∧ extractFileContent missingFS "gone" 1048576
          = Except.error (sizeLimitErrorMessage 1048576 "gone")
      ∧ (∀ files : List String, "gone" ∈ files →
          ("gone", handlerSizeLimitMessage 1048576)
            ∈ (processBatches missingFS 1048576 files).2)
      ∧ (∀ (files : List String) (e : String),
          ("gone", e) ∈ (processBatches missingFS 1048576 files).2 →
          e = handlerSizeLimitMessage 1048576)) :=
  ⟨by decide, statFailure_reported_as_size_limit (by decide)⟩

end Colorize
